import Mathlib

/-!
Shallow embedding of `core/calendar_sync.py` (with the pieces of
`core/config.py` and `core/schedule_reader.py` it uses) from the
running-group-app repository, together with proofs about the claims on the
calendar reconciliation engine.

Modelling conventions:
* Dates are abstract integers (a `date` object is only compared, indexed and
  ranged over in the source, never decomposed, except in
  `NoRunDates.is_no_run`, whose month/day and ISO-string tests are abstracted
  to the set of dates it accepts).
* `datetime` values are a (day, minute-of-day) pair; `timedelta` addition is
  exact minute arithmetic.
* Python strings are Lean `String`s; the `in` operator on strings is
  `pyInStr`, `str.split` is `pySplit`, `"\n".join` is `pyJoin`.
* `int(...)` is `pyIntOfChars` (strip whitespace, optional sign, decimal
  digits with single underscores allowed between digits).
* A Google event resource (a Python dict) is `GEvent`: its optional
  `description`, and `start_date`, the date extracted from
  `start.dateTime` (`none` models a missing or unparsable value — both make
  `datetime.fromisoformat` raise in the indexing step).
* The Google API gateway is a `Gateway` record: whether the initial listing
  raises, and which of the write calls (numbered in issue order) raise.
  Issued write calls are recorded in a trace together with their success.
* `float` route distances only ever appear rendered inside an f-string, so
  they are modelled by their rendered form (`none` covering both a missing
  and a zero — hence falsy — distance).
* A Python exception escaping `sync_schedule_to_calendar` (which can happen:
  `build_calendar_event` validates the parsed hour/minute *outside* its
  try/except) is modelled by the `exn` field: once set, no further work
  happens, matching propagation.
-/

namespace RunningApp

/-! ### Python string primitives -/

/-- `startsWith n h`: the list `n` is an initial segment of `h`. -/
def startsWith : List Char → List Char → Bool
  | [], _ => true
  | _ :: _, [] => false
  | a :: as, b :: bs => a == b && startsWith as bs

/-- Python `needle in haystack` on character lists: `n` occurs contiguously. -/
def pyInChars (n : List Char) : List Char → Bool
  | [] => n.isEmpty
  | h :: t => startsWith n (h :: t) || pyInChars n t

/-- Python `needle in haystack` for strings. -/
def pyInStr (needle haystack : String) : Bool :=
  pyInChars needle.toList haystack.toList

/-- Python `sep.join(parts)`. -/
def pyJoin (sep : String) : List String → String
  | [] => ""
  | [x] => x
  | x :: y :: xs => x ++ sep ++ pyJoin sep (y :: xs)

/-- Tail of Python `int` digit parsing: decimal digits, a single underscore
allowed only between two digits. `acc` is the value parsed so far. -/
def pyDigitTail (acc : Nat) : List Char → Option Nat
  | [] => some acc
  | '_' :: rest =>
    match rest with
    | [] => none
    | c :: rest2 =>
      if c.isDigit then pyDigitTail (10 * acc + (c.toNat - 48)) rest2 else none
  | c :: rest =>
    if c.isDigit then pyDigitTail (10 * acc + (c.toNat - 48)) rest else none

/-- Python `int` digit parsing: at least one digit, underscores between digits. -/
def pyDigits : List Char → Option Nat
  | [] => none
  | c :: rest => if c.isDigit then pyDigitTail (c.toNat - 48) rest else none

/-- Python `int(s)` on the characters of `s`: strip whitespace, optional
sign, decimal digits. -/
def pyIntOfChars (s : List Char) : Option Int :=
  let cs := ((s.dropWhile Char.isWhitespace).reverse.dropWhile
    Char.isWhitespace).reverse
  match cs with
  | '+' :: rest => (pyDigits rest).map (fun n => (n : Int))
  | '-' :: rest => (pyDigits rest).map (fun n => -(n : Int))
  | _ => (pyDigits cs).map (fun n => (n : Int))

/-- Python `s.split(sep)` for a one-character separator. -/
def pySplit (sep : Char) : List Char → List (List Char)
  | [] => [[]]
  | c :: rest =>
    if c == sep then [] :: pySplit sep rest
    else
      match pySplit sep rest with
      | g :: gs => (c :: g) :: gs
      | [] => [[c]]

/-! ### Data model (`config.py`, `schedule_reader.py`) -/

/-- `CalendarConfig` (the fields `calendar_sync.py` reads). -/
structure CalendarConfig where
  calendar_name : String := ""
  event_duration_minutes : Int := 60
  description_marker : String := "Managed by Running Group App"
deriving DecidableEq, Repr

/-- The application configuration, restricted to what the sync engine reads.
`no_run_dates` abstracts `NoRunDates` to the set of dates its `is_no_run`
accepts (its month/day and ISO-string mechanics need concrete calendar dates,
which the abstract integer dates do not carry). -/
structure Config where
  calendar : CalendarConfig := {}
  group_name : String := "Running Group"
  timezone : String := "Europe/London"
  no_run_dates : List Int := []
deriving DecidableEq, Repr

/-- `NoRunDates.is_no_run`, abstracted to membership in the accepted set. -/
def is_no_run (cfg : Config) (d : Int) : Bool :=
  cfg.no_run_dates.contains d

/-- `Route` (the fields `build_event_description` reads; `distance_km` is a
float in the source and is modelled by its rendered form, `none` covering a
missing and a zero — falsy — distance). -/
structure Route where
  name : String := ""
  url : String := ""
  distance_km : Option String := none
deriving DecidableEq, Repr

/-- `ScheduledRun` (the fields `calendar_sync.py` reads). -/
structure ScheduledRun where
  date : Int
  route_1 : Option Route := none
  route_2 : Option Route := none
  route_3 : Option Route := none
  meeting_point : String := ""
  start_time : String := "19:00"
  notes : String := ""
  is_cancelled : Bool := false
deriving DecidableEq, Repr

/-- A `datetime` value: day plus minute-of-day. -/
structure PyDateTime where
  day : Int
  minute : Int
deriving DecidableEq, Repr

/-- Total minutes represented by a `datetime` value. -/
def PyDateTime.totalMinutes (t : PyDateTime) : Int :=
  t.day * 1440 + t.minute

/-- `datetime + timedelta(minutes=m)`, renormalising into day/minute. -/
def pyTimedeltaAdd (t : PyDateTime) (m : Int) : PyDateTime :=
  let total := t.day * 1440 + t.minute + m
  { day := total / 1440, minute := total % 1440 }

/-- `CalendarEvent` dataclass. -/
structure CalendarEvent where
  title : String := ""
  description : String := ""
  location : String := ""
  start_time : PyDateTime
  end_time : PyDateTime
  timezone : String := "Europe/London"
deriving DecidableEq, Repr

/-- `SyncResult` dataclass. -/
structure SyncResult where
  created : Nat := 0
  updated : Nat := 0
  deleted : Nat := 0
  skipped : Nat := 0
  errors : List String := []
deriving DecidableEq, Repr

/-! ### Event description and event building (`calendar_sync.py` 45-104) -/

/-- The lines appended after the marker in `build_event_description`. -/
def descLines (run : ScheduledRun) : List String :=
  (match run.route_1 with
   | some r =>
     ["8K Route: " ++ r.name] ++ (if r.url ≠ "" then ["8K Link: " ++ r.url] else [])
   | none => []) ++
  (match run.route_2 with
   | some r =>
     ["5K Route: " ++ r.name] ++ (if r.url ≠ "" then ["5K Link: " ++ r.url] else [])
   | none => []) ++
  (match run.route_3 with
   | some r =>
     let label := if r.name ≠ "" then r.name else "Walk"
     let dist_part := match r.distance_km with
       | some d => " (" ++ d ++ " km)"
       | none => ""
     ["Social Walk Route: " ++ label ++ dist_part] ++
       (if r.url ≠ "" then ["Social Walk Link: " ++ r.url] else [])
   | none => []) ++
  ["Meeting: " ++ run.meeting_point] ++
  (if run.notes ≠ "" then [run.notes] else [])

/-- `build_event_description`: the marker line followed by route, meeting and
note lines, joined with newlines. -/
def build_event_description (cfg : Config) (run : ScheduledRun) : String :=
  pyJoin "\n" (cfg.calendar.description_marker :: descLines run)

/-- `build_calendar_event`. The `try`/`except` covers only the
`split`/`map(int, …)`/unpacking; `time.replace(hour=…, minute=…)` validates
the ranges *outside* it, so an in-range parse failure defaults to 19:00 while
an out-of-range parsed value raises `ValueError` (modelled as `.error`). -/
def build_calendar_event (cfg : Config) (run : ScheduledRun) :
    Except String CalendarEvent :=
  let hm : Int × Int :=
    match (pySplit ':' run.start_time.toList).mapM pyIntOfChars with
    | some [h, m] => (h, m)
    | _ => (19, 0)
  if 0 ≤ hm.1 ∧ hm.1 < 24 ∧ 0 ≤ hm.2 ∧ hm.2 < 60 then
    let start_dt : PyDateTime := { day := run.date, minute := hm.1 * 60 + hm.2 }
    let end_dt := pyTimedeltaAdd start_dt cfg.calendar.event_duration_minutes
    let title :=
      if cfg.calendar.calendar_name ≠ "" then cfg.calendar.calendar_name
      else cfg.group_name
    .ok
      { title := title
        description := build_event_description cfg run
        location := run.meeting_point
        start_time := start_dt
        end_time := end_dt
        timezone := cfg.timezone }
  else
    .error "ValueError: hour or minute out of range in time.replace"

/-! ### Remote events and ownership (`calendar_sync.py` 107-118, 198-283) -/

/-- A Google Calendar event resource as fetched from the API. -/
structure GEvent where
  id : Nat
  description : Option String := none
  start_date : Option Int := none
deriving DecidableEq, Repr

/-- `is_managed_event`: the marker occurs in the event description, a missing
description counting as `""` (`event.get("description", "")`). The source's
`description_marker=None` default pulls the configured marker; the model
passes the marker explicitly. -/
def is_managed_event (event : GEvent) (description_marker : String) : Bool :=
  pyInStr description_marker (event.description.getD "")

/-- The event resource stored by `create_event` / `update_event` for a built
`CalendarEvent`: the body carries the description and the start `dateTime`,
whose date component is the event's day. -/
def eventResource (id : Nat) (ev : CalendarEvent) : GEvent :=
  { id := id, description := some ev.description,
    start_date := some ev.start_time.day }

/-- `list_events`: the events of the calendar falling in the date window.
An event without a parseable start (`none`) models an all-day or malformed
entry and is conservatively included in the listing (it is discarded by the
indexing step either way). -/
def list_events (cal : List GEvent) (start_date end_date : Int) : List GEvent :=
  cal.filter fun ev =>
    match ev.start_date with
    | some d => decide (start_date ≤ d) && decide (d ≤ end_date)
    | none => true

/-! ### Python dict with insertion-order semantics -/

/-- `events_by_date`: a Python dict from date to event, as an
insertion-ordered association list. -/
abbrev DateDict := List (Int × GEvent)

/-- `d[k] = v`: overwrite in place if the key exists, else append. -/
def dictInsert (d : DateDict) (k : Int) (v : GEvent) : DateDict :=
  if d.any (fun p => p.1 == k) then
    d.map (fun p => if p.1 == k then (k, v) else p)
  else d ++ [(k, v)]

/-- `d.get(k)`. -/
def dictGet (d : DateDict) (k : Int) : Option GEvent :=
  (d.find? (fun p => p.1 == k)).map Prod.snd

/-- `del d[k]`. -/
def dictDel (d : DateDict) (k : Int) : DateDict :=
  d.filter (fun p => p.1 != k)

/-- One step of the indexing loop (lines 335-341): store the event under its
extracted date; an event whose start is missing or unparsable is skipped
(`except: continue`). -/
def indexStep (d : DateDict) (e : GEvent) : DateDict :=
  match e.start_date with
  | some dt => dictInsert d dt e
  | none => d

/-- Lines 334-341: index the managed events by extracted date. -/
def indexEvents (evs : List GEvent) : DateDict :=
  evs.foldl indexStep []

/-! ### The sync engine (`sync_schedule_to_calendar`, lines 289-400) -/

/-- A gateway write call as issued (`GOp.update`/`GOp.delete` carry the
target event id). -/
inductive GOp where
  | create (ev : CalendarEvent)
  | update (id : Nat) (ev : CalendarEvent)
  | delete (id : Nat)
deriving DecidableEq, Repr

/-- Behaviour of the Google API gateway: whether the initial `list_events`
raises, and whether the `n`-th issued write call (counted in issue order)
succeeds. -/
structure Gateway where
  list_fails : Bool := false
  write_ok : Nat → Bool := fun _ => true

/-- State threaded through the run loop and the orphan loop. `trace` records
each issued write call with its success; `exn` a propagating Python
exception; `next_id` the next fresh id the remote side would assign. -/
structure SyncState where
  res : SyncResult
  dict : DateDict
  cal : List GEvent
  trace : List (GOp × Bool)
  next_id : Nat
  call_idx : Nat
  exn : Option String
deriving Repr

/-- Issue one write call: record it, advance the call counter, and report
whether it succeeded. -/
def issueCall (gw : Gateway) (op : GOp) (st : SyncState) : SyncState × Bool :=
  let ok := gw.write_ok st.call_idx
  ({ st with trace := st.trace ++ [(op, ok)], call_idx := st.call_idx + 1 }, ok)

/-- Lines 344-387: process one scheduled run. -/
def processRun (cfg : Config) (gw : Gateway) (dryRun : Bool)
    (st : SyncState) (run : ScheduledRun) : SyncState :=
  if st.exn.isSome then st else
  let existing := dictGet st.dict run.date
  if run.is_cancelled || is_no_run cfg run.date then
    match existing with
    | some ev =>
      if dryRun then
        { st with res := { st.res with deleted := st.res.deleted + 1 } }
      else
        let (st1, ok) := issueCall gw (GOp.delete ev.id) st
        if ok then
          { st1 with
            cal := st1.cal.filter (fun e => e.id != ev.id)
            res := { st1.res with deleted := st1.res.deleted + 1 } }
        else
          { st1 with
            res := { st1.res with errors := st1.res.errors ++
              ["Failed to delete event for " ++ toString run.date] } }
    | none =>
      { st with res := { st.res with skipped := st.res.skipped + 1 } }
  else
    match build_calendar_event cfg run with
    | .error msg => { st with exn := some msg }
    | .ok desired =>
      match existing with
      | some ev =>
        let st1 :=
          if dryRun then
            { st with res := { st.res with updated := st.res.updated + 1 } }
          else
            let (st1, ok) := issueCall gw (GOp.update ev.id desired) st
            if ok then
              { st1 with
                cal := st1.cal.map
                  (fun e => if e.id == ev.id then eventResource ev.id desired else e)
                res := { st1.res with updated := st1.res.updated + 1 } }
            else
              { st1 with
                res := { st1.res with errors := st1.res.errors ++
                  ["Failed to update event for " ++ toString run.date] } }
        { st1 with dict := dictDel st1.dict run.date }
      | none =>
        if dryRun then
          { st with res := { st.res with created := st.res.created + 1 } }
        else
          let (st1, ok) := issueCall gw (GOp.create desired) st
          if ok then
            { st1 with
              cal := st1.cal ++ [eventResource st1.next_id desired]
              next_id := st1.next_id + 1
              res := { st1.res with created := st1.res.created + 1 } }
          else
            { st1 with
              res := { st1.res with errors := st1.res.errors ++
                ["Failed to create event for " ++ toString run.date] } }

/-- Lines 389-398: delete one orphan entry left in the date index. -/
def processOrphan (gw : Gateway) (dryRun : Bool)
    (st : SyncState) (p : Int × GEvent) : SyncState :=
  if st.exn.isSome then st else
  if dryRun then
    { st with res := { st.res with deleted := st.res.deleted + 1 } }
  else
    let (st1, ok) := issueCall gw (GOp.delete p.2.id) st
    if ok then
      { st1 with
        cal := st1.cal.filter (fun e => e.id != p.2.id)
        res := { st1.res with deleted := st1.res.deleted + 1 } }
    else
      { st1 with
        res := { st1.res with errors := st1.res.errors ++
          ["Failed to delete orphan event for " ++ toString p.1] } }

/-- Smallest id the remote side has never used (real Google event ids are
unique; the model keeps created ids fresh). -/
def freshId (cal : List GEvent) : Nat :=
  (cal.map (fun e => e.id)).foldl max 0 + 1

/-- Minimum of a list of dates (the runs list is nonempty when used). -/
def minDate (l : List Int) : Int := l.foldl min (l.headD 0)

/-- Maximum of a list of dates. -/
def maxDate (l : List Int) : Int := l.foldl max (l.headD 0)

/-- The outcome of one `sync_schedule_to_calendar` pass: the returned
`SyncResult`, the remote calendar afterwards, the issued write calls,
whether the listing was attempted, and a propagating exception if any. -/
structure SyncOutcome where
  res : SyncResult
  cal : List GEvent
  trace : List (GOp × Bool)
  listed : Bool
  exn : Option String
deriving Repr

/-- `sync_schedule_to_calendar` (lines 289-400). -/
def sync_schedule_to_calendar (cfg : Config) (gw : Gateway)
    (cal : List GEvent) (runs : List ScheduledRun) (dryRun : Bool) :
    SyncOutcome :=
  if runs.isEmpty then
    { res := {}, cal := cal, trace := [], listed := false, exn := none }
  else
    let dates := runs.map (fun r => r.date)
    let start_date := minDate dates - 1
    let end_date := maxDate dates + 1
    if gw.list_fails then
      { res := { errors := ["Failed to list events"] }, cal := cal,
        trace := [], listed := true, exn := none }
    else
      let existing_events := list_events cal start_date end_date
      let managed_events := existing_events.filter
        (fun e => is_managed_event e cfg.calendar.description_marker)
      let events_by_date := indexEvents managed_events
      let st0 : SyncState :=
        { res := {}, dict := events_by_date, cal := cal, trace := [],
          next_id := freshId cal, call_idx := 0, exn := none }
      let st1 := runs.foldl (processRun cfg gw dryRun) st0
      let st2 := st1.dict.foldl (processOrphan gw dryRun) st1
      { res := st2.res, cal := st2.cal, trace := st2.trace,
        listed := true, exn := st2.exn }

/-! ### Derived observations on the sync engine -/

/-- The counter-relevant part of a loop state: result, date index, pending
exception. When every issued gateway call succeeds (or in a dry run) a run
step acts on this triple alone. -/
def absSync (st : SyncState) : SyncResult × DateDict × Option String :=
  (st.res, st.dict, st.exn)

/-- The action of one run-loop step on the counter-relevant state, when the
gateway call (if any) succeeds. -/
def stepA (cfg : Config) (p : SyncResult × DateDict × Option String)
    (run : ScheduledRun) : SyncResult × DateDict × Option String :=
  match p with
  | (res, dict, some m) => (res, dict, some m)
  | (res, dict, none) =>
    if run.is_cancelled || is_no_run cfg run.date then
      match dictGet dict run.date with
      | some _ => ({ res with deleted := res.deleted + 1 }, dict, none)
      | none => ({ res with skipped := res.skipped + 1 }, dict, none)
    else
      match build_calendar_event cfg run with
      | .error m => (res, dict, some m)
      | .ok _ =>
        match dictGet dict run.date with
        | some _ =>
          ({ res with updated := res.updated + 1 }, dictDel dict run.date, none)
        | none => ({ res with created := res.created + 1 }, dict, none)

/-- The action of one orphan-loop step on the counter-relevant state, when
the gateway call (if any) succeeds. -/
def stepOrphA (p : SyncResult × DateDict × Option String) (_q : Int × GEvent) :
    SyncResult × DateDict × Option String :=
  match p with
  | (res, dict, some m) => (res, dict, some m)
  | (res, dict, none) => ({ res with deleted := res.deleted + 1 }, dict, none)

/-- Does a write call target event id `i` with an update or a delete? -/
def opTouches (op : GOp) (i : Nat) : Bool :=
  match op with
  | .create _ => false
  | .update j _ => j == i
  | .delete j => j == i

/-- Is a write call a create / update / delete? -/
def isCreateOp : GOp → Bool
  | .create _ => true
  | _ => false

/-- Is a write call an update? -/
def isUpdateOp : GOp → Bool
  | .update _ _ => true
  | _ => false

/-- Is a write call a delete? -/
def isDeleteOp : GOp → Bool
  | .delete _ => true
  | _ => false

/-- The managed events of a calendar carrying a given start date
("managed-parseable at `d`"). -/
def mpAt (marker : String) (cal : List GEvent) (d : Int) : List GEvent :=
  cal.filter (fun e => is_managed_event e marker && e.start_date == some d)

/-- Is a run active (neither cancelled nor on a no-run date)? -/
def runActive (cfg : Config) (r : ScheduledRun) : Bool :=
  !(r.is_cancelled || is_no_run cfg r.date)

/-- Number of active runs in a list. -/
def activeCount (cfg : Config) (runs : List ScheduledRun) : Nat :=
  (runs.filter (runActive cfg)).length

/-- The keys of a date index. -/
def dictKeys (d : DateDict) : List Int := d.map Prod.fst

/-- The counters of a loop state agree with its trace: each counter equals
the number of successful calls of its kind, and the number of recorded
errors equals the number of failed calls. -/
def traceCounts (st : SyncState) : Prop :=
  st.res.created = (st.trace.filter (fun p => isCreateOp p.1 && p.2)).length ∧
  st.res.updated = (st.trace.filter (fun p => isUpdateOp p.1 && p.2)).length ∧
  st.res.deleted = (st.trace.filter (fun p => isDeleteOp p.1 && p.2)).length ∧
  st.res.errors.length = (st.trace.filter (fun p => !p.2)).length

/-- The same gateway with every write call forced to succeed. -/
def withAllOk (gw : Gateway) : Gateway := { gw with write_ok := fun _ => true }

/-- Structural invariant maintained by a live all-success pass, relative to
the initial date index `dict0`: no pending exception; calendar ids unique
and below the fresh-id watermark; index entries only shrink from `dict0`,
with unique keys and unique value-ids; and any calendar event sharing an id
with an index value is managed and dated at that entry's key. -/
def syncInv (cfg : Config) (dict0 : DateDict) (st : SyncState) : Prop :=
  st.exn = none ∧
  (st.cal.map (fun e => e.id)).Nodup ∧
  (∀ ev ∈ st.cal, ev.id < st.next_id) ∧
  (∀ q ∈ st.dict, q.2.id < st.next_id) ∧
  (∀ q ∈ st.dict, q ∈ dict0) ∧
  (∀ q ∈ st.dict, ∀ ev ∈ st.cal, ev.id = q.2.id →
    (is_managed_event ev cfg.calendar.description_marker = true ∧
     ev.start_date = some q.1)) ∧
  (dictKeys st.dict).Nodup ∧
  (st.dict.map (fun q => q.2.id)).Nodup

/-! ### Concrete instances used in counterexamples and witnesses -/

/-- A configuration with the source defaults. -/
def sampleCfg : Config := {}

/-- A gateway on which every call succeeds. -/
def gwAllOk : Gateway := {}

/-- A gateway whose initial listing raises. -/
def gwListFails : Gateway := { list_fails := true }

/-- A gateway on which exactly the first write call raises. -/
def gwFailFirst : Gateway := { write_ok := fun n => decide (n ≠ 0) }

/-- A managed event on date 0. -/
def managedEv0 : GEvent :=
  { id := 1, description := some sampleCfg.calendar.description_marker,
    start_date := some 0 }

/-- A foreign event on date 0: no description field at all. -/
def foreignEv0 : GEvent := { id := 7 }

/-- A cancelled run on date 0. -/
def cancelledRun0 : ScheduledRun := { date := 0, is_cancelled := true }

/-- An ordinary run on date 0. -/
def plainRun0 : ScheduledRun := { date := 0 }

/-- An ordinary run on date 4. -/
def plainRun4 : ScheduledRun := { date := 4 }

/-- A run whose start time parses to an out-of-range hour. -/
def badTimeRun : ScheduledRun := { date := 0, start_time := "25:00" }

/-- A cancelled run on date 9. -/
def cancelledRun9 : ScheduledRun := { date := 9, is_cancelled := true }

/-- Two managed events sharing date 5 (ids 1 and 2). -/
def managedEv5a : GEvent :=
  { id := 1, description := some sampleCfg.calendar.description_marker,
    start_date := some 5 }

/-- Second managed event on date 5. -/
def managedEv5b : GEvent :=
  { id := 2, description := some sampleCfg.calendar.description_marker,
    start_date := some 5 }

/-! ### Generic helper lemmas -/

theorem pyInChars_nil (l : List Char) : pyInChars [] l = true := by
  cases l <;> simp [pyInChars, startsWith, List.isEmpty]

theorem startsWith_self_append (n r : List Char) :
    startsWith n (n ++ r) = true := by
  induction n with
  | nil => simp [startsWith]
  | cons a as ih => simp [startsWith, ih]

theorem pyInChars_self_append (n r : List Char) :
    pyInChars n (n ++ r) = true := by
  cases n with
  | nil => exact pyInChars_nil r
  | cons a as =>
    have h := startsWith_self_append (a :: as) r
    rw [List.cons_append] at h
    simp [pyInChars, h]

/-- `foldl` preserves a predicate that every step preserves (steps drawn from
the folded list). -/
theorem foldl_preserves {α β : Type _} (f : α → β → α) (P : α → Prop) :
    ∀ (l : List β) (st : α), (∀ s a, a ∈ l → P s → P (f s a)) → P st →
      P (l.foldl f st)
  | [], st, _, h0 => h0
  | a :: l, st, h, h0 =>
    foldl_preserves f P l (f st a)
      (fun s b hb hs => h s b (List.mem_cons_of_mem a hb) hs)
      (h st a (List.mem_cons_self a l) h0)

/-- `foldl` preserves an equality-style observation that every step keeps. -/
theorem foldl_keeps {α β γ : Type _} (f : α → β → α) (P : α → γ) :
    ∀ (l : List β) (st : α), (∀ s a, a ∈ l → P (f s a) = P s) →
      P (l.foldl f st) = P st
  | [], _, _ => rfl
  | a :: l, st, h => by
    rw [List.foldl_cons,
      foldl_keeps f P l (f st a)
        (fun s b hb => h s b (List.mem_cons_of_mem a hb)),
      h st a (List.mem_cons_self a l)]

/-- Two `foldl`s over the same list preserve a step-preserved relation. -/
theorem foldl_rel {α β γ : Type _} (f : α → γ → α) (g : β → γ → β)
    (R : α → β → Prop) :
    ∀ (l : List γ) (a : α) (b : β),
      (∀ x y c, c ∈ l → R x y → R (f x c) (g y c)) → R a b →
      R (l.foldl f a) (l.foldl g b)
  | [], _, _, _, h0 => h0
  | c :: l, a, b, h, h0 =>
    foldl_rel f g R l (f a c) (g b c)
      (fun x y d hd hr => h x y d (List.mem_cons_of_mem c hd) hr)
      (h a b c (List.mem_cons_self c l) h0)

/-! ### Claim theorems -/

/-- C10: `is_managed_event` with the empty marker accepts every event,
including one with no description field (missing description reads as `""`,
and the empty string occurs in every string). -/
theorem claim10_empty_marker_matches_all (e : GEvent) :
    is_managed_event e "" = true := by
  unfold is_managed_event pyInStr
  have h : ("" : String).toList = [] := rfl
  rw [h, pyInChars_nil]

/-- C6 (code bug): the event builder is not total. `"25:00"` survives the
`try`/`except` (it parses as the two ints 25 and 0) but
`time.replace(hour=25)` — which the source calls outside the `try` — raises
`ValueError` instead of defaulting to 19:00. -/
theorem claim6_builder_raises_on_out_of_range_time :
    build_calendar_event sampleCfg badTimeRun =
      Except.error "ValueError: hour or minute out of range in time.replace" := by
  rfl

/-- C1 (code bug): a cancelled run whose date holds a managed event is not
terminal for that date. The cancelled branch deletes the event but never
removes the date from `events_by_date`, so the orphan loop processes the same
date again: a dry run reports `deleted = 2`, and a live run issues the delete
call for event id 1 twice. -/
theorem claim1_cancellation_not_terminal :
    (sync_schedule_to_calendar sampleCfg gwAllOk [managedEv0]
      [cancelledRun0] true).res.deleted = 2 ∧
    (sync_schedule_to_calendar sampleCfg gwAllOk [managedEv0]
      [cancelledRun0] false).trace =
      [(GOp.delete 1, true), (GOp.delete 1, true)] := by
  exact ⟨rfl, rfl⟩

/-- C8: an empty runs list returns the all-zero result with no gateway call
at all, and a failing initial listing terminates the pass with zero
counters, exactly one recorded error and no write call. -/
theorem claim8_fetch_failure_and_empty_runs (cfg : Config) (gw : Gateway)
    (cal : List GEvent) (runs : List ScheduledRun) (dryRun : Bool) :
    (runs = [] →
      sync_schedule_to_calendar cfg gw cal runs dryRun =
        { res := {}, cal := cal, trace := [], listed := false, exn := none }) ∧
    (gw.list_fails = true → runs ≠ [] →
      sync_schedule_to_calendar cfg gw cal runs dryRun =
        { res := { errors := ["Failed to list events"] }, cal := cal,
          trace := [], listed := true, exn := none }) := by
  constructor
  · intro h
    subst h
    rfl
  · intro hfail hne
    unfold sync_schedule_to_calendar
    rw [List.isEmpty_eq_false_iff_exists_mem.mpr
      (by cases runs with
        | nil => exact absurd rfl hne
        | cons a l => exact ⟨a, List.mem_cons_self a l⟩)]
    simp [hfail]

/-- Witness for C8 at concrete inputs. -/
theorem claim8_witness :
    (sync_schedule_to_calendar sampleCfg gwAllOk [managedEv0] [] true =
      { res := {}, cal := [managedEv0], trace := [], listed := false,
        exn := none }) ∧
    (sync_schedule_to_calendar sampleCfg gwListFails [managedEv0]
      [plainRun0] false =
      { res := { errors := ["Failed to list events"] }, cal := [managedEv0],
        trace := [], listed := true, exn := none }) :=
  ⟨(claim8_fetch_failure_and_empty_runs sampleCfg gwAllOk [managedEv0] []
      true).1 rfl,
   (claim8_fetch_failure_and_empty_runs sampleCfg gwListFails [managedEv0]
      [plainRun0] false).2 rfl (by simp)⟩

/-! ### Simulation of the loops by the abstract counter dynamics -/

theorem processRun_abs_dry (cfg : Config) (gw : Gateway) (st : SyncState)
    (run : ScheduledRun) :
    absSync (processRun cfg gw true st run) = stepA cfg (absSync st) run := by
  unfold processRun stepA absSync
  cases hexn : st.exn with
  | some m => simp [hexn]
  | none =>
    simp only [hexn, Option.isSome_none, Bool.false_eq_true, if_false]
    by_cases hc : (run.is_cancelled || is_no_run cfg run.date) = true
    · simp only [hc, if_true]
      cases hg : dictGet st.dict run.date <;> simp [hg]
    · simp only [hc, if_false, Bool.not_eq_true] at *
      simp only [hc, Bool.false_eq_true, if_false]
      cases hb : build_calendar_event cfg run with
      | error m => simp [hb]
      | ok desired => cases hg : dictGet st.dict run.date <;> simp [hb, hg]

theorem processRun_abs_live (cfg : Config) (gw : Gateway) (st : SyncState)
    (run : ScheduledRun) (hok : ∀ n, gw.write_ok n = true) :
    absSync (processRun cfg gw false st run) = stepA cfg (absSync st) run := by
  unfold processRun stepA absSync issueCall
  cases hexn : st.exn with
  | some m => simp [hexn]
  | none =>
    simp only [hexn, Option.isSome_none, Bool.false_eq_true, if_false]
    by_cases hc : (run.is_cancelled || is_no_run cfg run.date) = true
    · simp only [hc, if_true]
      cases hg : dictGet st.dict run.date <;> simp [hg, hok]
    · simp only [hc, if_false, Bool.not_eq_true] at *
      simp only [hc, Bool.false_eq_true, if_false]
      cases hb : build_calendar_event cfg run with
      | error m => simp [hb]
      | ok desired =>
        cases hg : dictGet st.dict run.date <;> simp [hb, hg, hok]

theorem processOrphan_abs_dry (gw : Gateway) (st : SyncState)
    (q : Int × GEvent) :
    absSync (processOrphan gw true st q) = stepOrphA (absSync st) q := by
  unfold processOrphan stepOrphA absSync
  cases hexn : st.exn <;> simp [hexn]

theorem processOrphan_abs_live (gw : Gateway) (st : SyncState)
    (q : Int × GEvent) (hok : ∀ n, gw.write_ok n = true) :
    absSync (processOrphan gw false st q) = stepOrphA (absSync st) q := by
  unfold processOrphan stepOrphA absSync issueCall
  cases hexn : st.exn <;> simp [hexn, hok]

theorem processRun_dry_trace (cfg : Config) (gw : Gateway) (st : SyncState)
    (run : ScheduledRun) :
    (processRun cfg gw true st run).trace = st.trace := by
  unfold processRun
  cases hexn : st.exn with
  | some m => simp [hexn]
  | none =>
    simp only [hexn, Option.isSome_none, Bool.false_eq_true, if_false]
    by_cases hc : (run.is_cancelled || is_no_run cfg run.date) = true
    · simp only [hc, if_true]
      cases hg : dictGet st.dict run.date <;> simp [hg]
    · simp only [hc, Bool.false_eq_true, if_false]
      cases hb : build_calendar_event cfg run with
      | error m => simp [hb]
      | ok desired => cases hg : dictGet st.dict run.date <;> simp [hb, hg]

theorem processOrphan_dry_trace (gw : Gateway) (st : SyncState)
    (q : Int × GEvent) :
    (processOrphan gw true st q).trace = st.trace := by
  unfold processOrphan
  cases hexn : st.exn <;> simp [hexn]

theorem processRun_dry_errors (cfg : Config) (gw : Gateway) (st : SyncState)
    (run : ScheduledRun) :
    (processRun cfg gw true st run).res.errors = st.res.errors := by
  have h := processRun_abs_dry cfg gw st run
  have h2 : (processRun cfg gw true st run).res = (stepA cfg (absSync st) run).1 := by
    rw [← h]; rfl
  rw [h2]
  unfold stepA absSync
  cases hexn : st.exn with
  | some m => simp
  | none =>
    by_cases hc : (run.is_cancelled || is_no_run cfg run.date) = true
    · simp only [hc, if_true]
      cases hg : dictGet st.dict run.date <;> simp [hg]
    · simp only [hc, Bool.false_eq_true, if_false]
      cases hb : build_calendar_event cfg run with
      | error m => simp [hb]
      | ok desired => cases hg : dictGet st.dict run.date <;> simp [hb, hg]

theorem processOrphan_dry_errors (gw : Gateway) (st : SyncState)
    (q : Int × GEvent) :
    (processOrphan gw true st q).res.errors = st.res.errors := by
  have h := processOrphan_abs_dry gw st q
  have h2 : (processOrphan gw true st q).res = (stepOrphA (absSync st) q).1 := by
    rw [← h]; rfl
  rw [h2]
  unfold stepOrphA absSync
  cases hexn : st.exn <;> simp

/-- C9: in dry-run mode no per-item error can be recorded; the errors list is
empty whenever the initial listing succeeds. -/
theorem claim9_dry_run_records_no_errors (cfg : Config) (gw : Gateway)
    (cal : List GEvent) (runs : List ScheduledRun)
    (hlist : gw.list_fails = false) :
    (sync_schedule_to_calendar cfg gw cal runs true).res.errors = [] := by
  unfold sync_schedule_to_calendar
  by_cases hruns : runs.isEmpty
  · simp [hruns]
  · simp only [hruns, Bool.false_eq_true, if_false, hlist]
    have h1 : ∀ (st : SyncState),
        ((runs.foldl (processRun cfg gw true) st).res.errors) = st.res.errors :=
      fun st => foldl_keeps (processRun cfg gw true) (fun s => s.res.errors)
        runs st (fun s a _ => processRun_dry_errors cfg gw s a)
    have h2 : ∀ (st : SyncState) (l : DateDict),
        ((l.foldl (processOrphan gw true) st).res.errors) = st.res.errors :=
      fun st l => foldl_keeps (processOrphan gw true) (fun s => s.res.errors)
        l st (fun s a _ => processOrphan_dry_errors gw s a)
    rw [h2, h1]

/-- Witness for C9 at concrete inputs. -/
theorem claim9_witness :
    gwAllOk.list_fails = false ∧
    (sync_schedule_to_calendar sampleCfg gwAllOk [managedEv0]
      [plainRun0, cancelledRun0] true).res.errors = [] :=
  ⟨rfl, claim9_dry_run_records_no_errors sampleCfg gwAllOk [managedEv0]
    [plainRun0, cancelledRun0] rfl⟩

/-- C2: with a static remote state and a gateway on which every live call
succeeds, a dry-run pass and a live pass return the same `SyncResult`
(all four counters and the errors list), and the dry-run pass issues no
create, update or delete gateway call. -/
theorem claim2_dry_run_fidelity (cfg : Config) (gw : Gateway)
    (cal : List GEvent) (runs : List ScheduledRun)
    (hok : ∀ n, gw.write_ok n = true) :
    (sync_schedule_to_calendar cfg gw cal runs true).res =
      (sync_schedule_to_calendar cfg gw cal runs false).res ∧
    (sync_schedule_to_calendar cfg gw cal runs true).trace = [] := by
  unfold sync_schedule_to_calendar
  by_cases hruns : runs.isEmpty
  · simp [hruns]
  · by_cases hlist : gw.list_fails
    · simp [hruns, hlist]
    · simp only [hruns, Bool.false_eq_true, if_false, eq_self_iff_true,
        hlist]
      constructor
      · -- counters: both passes simulate the abstract dynamics
        have habs : ∀ (a b : SyncState), absSync a = absSync b →
            absSync (runs.foldl (processRun cfg gw true) a) =
              absSync (runs.foldl (processRun cfg gw false) b) := by
          intro a b hab
          exact foldl_rel (processRun cfg gw true) (processRun cfg gw false)
            (fun x y => absSync x = absSync y) runs a b
            (fun x y c _ hr => by
              show absSync (processRun cfg gw true x c) =
                absSync (processRun cfg gw false y c)
              rw [processRun_abs_dry cfg gw x c,
                processRun_abs_live cfg gw y c hok]
              exact congrArg (fun p => stepA cfg p c) hr) hab
        set st0 : SyncState :=
          { res := {},
            dict := indexEvents ((list_events cal
                (minDate (runs.map fun r => r.date) - 1)
                (maxDate (runs.map fun r => r.date) + 1)).filter
              (fun e => is_managed_event e cfg.calendar.description_marker)),
            cal := cal, trace := [],
            next_id := freshId cal, call_idx := 0, exn := none } with hst0
        have h1 := habs st0 st0 rfl
        have hdicts : (runs.foldl (processRun cfg gw true) st0).dict =
            (runs.foldl (processRun cfg gw false) st0).dict := by
          have := congrArg (fun p => p.2.1) h1
          simpa [absSync] using this
        have h2 : absSync
            (((runs.foldl (processRun cfg gw true) st0).dict).foldl
              (processOrphan gw true)
              (runs.foldl (processRun cfg gw true) st0)) =
            absSync
            (((runs.foldl (processRun cfg gw false) st0).dict).foldl
              (processOrphan gw false)
              (runs.foldl (processRun cfg gw false) st0)) := by
          rw [hdicts]
          exact foldl_rel (processOrphan gw true) (processOrphan gw false)
            (fun x y => absSync x = absSync y)
            ((runs.foldl (processRun cfg gw false) st0).dict) _ _
            (fun x y c _ hr => by
              show absSync (processOrphan gw true x c) =
                absSync (processOrphan gw false y c)
              rw [processOrphan_abs_dry gw x c,
                processOrphan_abs_live gw y c hok]
              exact congrArg (fun p => stepOrphA p c) hr) h1
        have := congrArg (fun p => p.1) h2
        simpa [absSync] using this
      · -- the dry pass records no write call
        have h1 : ∀ (st : SyncState) (l : List ScheduledRun),
            ((l.foldl (processRun cfg gw true) st).trace) = st.trace :=
          fun st l => foldl_keeps (processRun cfg gw true) (fun s => s.trace)
            l st (fun s a _ => processRun_dry_trace cfg gw s a)
        have h2 : ∀ (st : SyncState) (l : DateDict),
            ((l.foldl (processOrphan gw true) st).trace) = st.trace :=
          fun st l => foldl_keeps (processOrphan gw true) (fun s => s.trace)
            l st (fun s a _ => processOrphan_dry_trace gw s a)
        rw [h2, h1]

/-- Witness for C2 at concrete inputs. -/
theorem claim2_witness :
    (sync_schedule_to_calendar sampleCfg gwAllOk [managedEv0, foreignEv0]
      [plainRun0, plainRun4, cancelledRun0] true).res =
      (sync_schedule_to_calendar sampleCfg gwAllOk [managedEv0, foreignEv0]
        [plainRun0, plainRun4, cancelledRun0] false).res ∧
    (sync_schedule_to_calendar sampleCfg gwAllOk [managedEv0, foreignEv0]
      [plainRun0, plainRun4, cancelledRun0] true).trace = [] :=
  claim2_dry_run_fidelity sampleCfg gwAllOk [managedEv0, foreignEv0]
    [plainRun0, plainRun4, cancelledRun0] (fun _ => rfl)

/-! ### Trace bookkeeping for live passes -/

theorem processRun_traceCounts (cfg : Config) (gw : Gateway) (st : SyncState)
    (run : ScheduledRun) (h : traceCounts st) :
    traceCounts (processRun cfg gw false st run) := by
  unfold traceCounts at *
  obtain ⟨h1, h2, h3, h4⟩ := h
  unfold processRun issueCall
  cases hexn : st.exn with
  | some m => simp only [hexn, Option.isSome_some, if_true]; exact ⟨h1, h2, h3, h4⟩
  | none =>
    simp only [hexn, Option.isSome_none, Bool.false_eq_true, if_false]
    by_cases hc : (run.is_cancelled || is_no_run cfg run.date) = true
    · simp only [hc, if_true]
      cases hg : dictGet st.dict run.date with
      | none => simp [hg, h1, h2, h3, h4]
      | some ev =>
        cases hok : gw.write_ok st.call_idx <;>
          simp [hg, hok, List.filter_append, isCreateOp, isUpdateOp,
            isDeleteOp, h1, h2, h3, h4]
    · simp only [hc, Bool.false_eq_true, if_false]
      cases hb : build_calendar_event cfg run with
      | error m => simp [hb, h1, h2, h3, h4]
      | ok desired =>
        cases hg : dictGet st.dict run.date with
        | none =>
          cases hok : gw.write_ok st.call_idx <;>
            simp [hb, hg, hok, List.filter_append, isCreateOp, isUpdateOp,
              isDeleteOp, h1, h2, h3, h4]
        | some ev =>
          cases hok : gw.write_ok st.call_idx <;>
            simp [hb, hg, hok, List.filter_append, isCreateOp, isUpdateOp,
              isDeleteOp, h1, h2, h3, h4]

theorem processOrphan_traceCounts (gw : Gateway) (st : SyncState)
    (q : Int × GEvent) (h : traceCounts st) :
    traceCounts (processOrphan gw false st q) := by
  unfold traceCounts at *
  obtain ⟨h1, h2, h3, h4⟩ := h
  unfold processOrphan issueCall
  cases hexn : st.exn with
  | some m => simp only [hexn, Option.isSome_some, if_true]; exact ⟨h1, h2, h3, h4⟩
  | none =>
    cases hok : gw.write_ok st.call_idx <;>
      simp [hexn, hok, List.filter_append, isCreateOp, isUpdateOp,
        isDeleteOp, h1, h2, h3, h4]

theorem processRun_failure_shape (cfg : Config) (gw : Gateway)
    (run : ScheduledRun) (a b : SyncState) (hdict : a.dict = b.dict)
    (hexn : a.exn = b.exn) (hidx : a.call_idx = b.call_idx)
    (htr : a.trace.map Prod.fst = b.trace.map Prod.fst) :
    (processRun cfg gw false a run).dict =
      (processRun cfg (withAllOk gw) false b run).dict ∧
    (processRun cfg gw false a run).exn =
      (processRun cfg (withAllOk gw) false b run).exn ∧
    (processRun cfg gw false a run).call_idx =
      (processRun cfg (withAllOk gw) false b run).call_idx ∧
    (processRun cfg gw false a run).trace.map Prod.fst =
      (processRun cfg (withAllOk gw) false b run).trace.map Prod.fst := by
  unfold processRun issueCall
  cases hbe : b.exn with
  | some m => simp [hexn.trans hbe, hbe, hdict, hidx, htr]
  | none =>
    have hae : a.exn = none := hexn.trans hbe
    simp only [hae, hbe, Option.isSome_none, Bool.false_eq_true, if_false]
    by_cases hc : (run.is_cancelled || is_no_run cfg run.date) = true
    · simp only [hc, if_true]
      cases hg : dictGet b.dict run.date with
      | none => simp [hdict, hg, hae, hbe, hidx, htr]
      | some ev =>
        cases hok : gw.write_ok a.call_idx <;>
          simp [hdict, hg, hok, hae, hbe, hidx, htr, withAllOk,
            List.map_append]
    · simp only [hc, Bool.false_eq_true, if_false]
      cases hb : build_calendar_event cfg run with
      | error m => simp [hb, hdict, hae, hbe, hidx, htr]
      | ok desired =>
        cases hg : dictGet b.dict run.date with
        | none =>
          cases hok : gw.write_ok a.call_idx <;>
            simp [hb, hdict, hg, hok, hae, hbe, hidx, htr, withAllOk,
              List.map_append]
        | some ev =>
          cases hok : gw.write_ok a.call_idx <;>
            simp [hb, hdict, hg, hok, hae, hbe, hidx, htr, withAllOk,
              List.map_append]

theorem processOrphan_failure_shape (gw : Gateway) (q : Int × GEvent)
    (a b : SyncState) (hdict : a.dict = b.dict) (hexn : a.exn = b.exn)
    (hidx : a.call_idx = b.call_idx)
    (htr : a.trace.map Prod.fst = b.trace.map Prod.fst) :
    (processOrphan gw false a q).dict =
      (processOrphan (withAllOk gw) false b q).dict ∧
    (processOrphan gw false a q).exn =
      (processOrphan (withAllOk gw) false b q).exn ∧
    (processOrphan gw false a q).call_idx =
      (processOrphan (withAllOk gw) false b q).call_idx ∧
    (processOrphan gw false a q).trace.map Prod.fst =
      (processOrphan (withAllOk gw) false b q).trace.map Prod.fst := by
  unfold processOrphan issueCall
  cases hbe : b.exn with
  | some m => simp [hexn.trans hbe, hbe, hdict, hidx, htr]
  | none =>
    have hae : a.exn = none := hexn.trans hbe
    cases hok : gw.write_ok a.call_idx <;>
      simp [hae, hbe, hok, hdict, hidx, htr, withAllOk, List.map_append]

/-- C7: in a live pass each counter equals the number of successful gateway
calls of its kind and each failed call contributes exactly one per-date error
message; and which write calls are issued (and in which order) is unchanged
by failures — the pass carries on through the remaining runs and orphans. -/
theorem claim7_per_item_failure_is_isolated (cfg : Config) (gw : Gateway)
    (cal : List GEvent) (runs : List ScheduledRun)
    (hlist : gw.list_fails = false) :
    ((sync_schedule_to_calendar cfg gw cal runs false).res.created =
      ((sync_schedule_to_calendar cfg gw cal runs false).trace.filter
        (fun p => isCreateOp p.1 && p.2)).length ∧
     (sync_schedule_to_calendar cfg gw cal runs false).res.updated =
      ((sync_schedule_to_calendar cfg gw cal runs false).trace.filter
        (fun p => isUpdateOp p.1 && p.2)).length ∧
     (sync_schedule_to_calendar cfg gw cal runs false).res.deleted =
      ((sync_schedule_to_calendar cfg gw cal runs false).trace.filter
        (fun p => isDeleteOp p.1 && p.2)).length ∧
     (sync_schedule_to_calendar cfg gw cal runs false).res.errors.length =
      ((sync_schedule_to_calendar cfg gw cal runs false).trace.filter
        (fun p => !p.2)).length) ∧
    (sync_schedule_to_calendar cfg gw cal runs false).trace.map Prod.fst =
      (sync_schedule_to_calendar cfg (withAllOk gw) cal runs
        false).trace.map Prod.fst := by
  unfold sync_schedule_to_calendar
  by_cases hruns : runs.isEmpty
  · simp [hruns]
  · have hlist2 : (withAllOk gw).list_fails = false := hlist
    simp only [hruns, Bool.false_eq_true, if_false, hlist, hlist2, withAllOk]
    constructor
    · -- counters against the trace
      set st0 : SyncState :=
        { res := {},
          dict := indexEvents ((list_events cal
              (minDate (runs.map fun r => r.date) - 1)
              (maxDate (runs.map fun r => r.date) + 1)).filter
            (fun e => is_managed_event e cfg.calendar.description_marker)),
          cal := cal, trace := [],
          next_id := freshId cal, call_idx := 0, exn := none } with hst0
      have hTC0 : traceCounts st0 := by
        refine ⟨rfl, rfl, rfl, rfl⟩
      have hTC1 : traceCounts (runs.foldl (processRun cfg gw false) st0) :=
        foldl_preserves (processRun cfg gw false) traceCounts runs st0
          (fun s a _ hs => processRun_traceCounts cfg gw s a hs) hTC0
      have hTC2 : traceCounts
          (((runs.foldl (processRun cfg gw false) st0).dict).foldl
            (processOrphan gw false)
            (runs.foldl (processRun cfg gw false) st0)) :=
        foldl_preserves (processOrphan gw false) traceCounts _ _
          (fun s a _ hs => processOrphan_traceCounts gw s a hs) hTC1
      exact hTC2
    · -- the issued write calls do not depend on which calls fail
      set R : SyncState → SyncState → Prop := fun a b =>
        a.dict = b.dict ∧ a.exn = b.exn ∧ a.call_idx = b.call_idx ∧
        a.trace.map Prod.fst = b.trace.map Prod.fst with hR
      set st0 : SyncState :=
        { res := {},
          dict := indexEvents ((list_events cal
              (minDate (runs.map fun r => r.date) - 1)
              (maxDate (runs.map fun r => r.date) + 1)).filter
            (fun e => is_managed_event e cfg.calendar.description_marker)),
          cal := cal, trace := [],
          next_id := freshId cal, call_idx := 0, exn := none } with hst0
      have h1 : R (runs.foldl (processRun cfg gw false) st0)
          (runs.foldl (processRun cfg (withAllOk gw) false) st0) :=
        foldl_rel (processRun cfg gw false)
          (processRun cfg (withAllOk gw) false) R runs st0 st0
          (fun x y c _ hr =>
            processRun_failure_shape cfg gw c x y hr.1 hr.2.1 hr.2.2.1 hr.2.2.2)
          ⟨rfl, rfl, rfl, rfl⟩
      have hdicts := h1.1
      have h2 : R
          (((runs.foldl (processRun cfg gw false) st0).dict).foldl
            (processOrphan gw false)
            (runs.foldl (processRun cfg gw false) st0))
          (((runs.foldl (processRun cfg (withAllOk gw) false) st0).dict).foldl
            (processOrphan (withAllOk gw) false)
            (runs.foldl (processRun cfg (withAllOk gw) false) st0)) := by
        rw [← hdicts]
        exact foldl_rel (processOrphan gw false)
          (processOrphan (withAllOk gw) false) R
          ((runs.foldl (processRun cfg gw false) st0).dict) _ _
          (fun x y c _ hr =>
            processOrphan_failure_shape gw c x y hr.1 hr.2.1 hr.2.2.1 hr.2.2.2)
          h1
      exact h2.2.2.2

/-- Witness for C7: first write call fails, the create is still issued, the
counter stays 0 and one error is recorded. -/
theorem claim7_witness :
    gwFailFirst.list_fails = false ∧
    ((sync_schedule_to_calendar sampleCfg gwFailFirst [] [plainRun0]
      false).res.created =
      ((sync_schedule_to_calendar sampleCfg gwFailFirst [] [plainRun0]
        false).trace.filter (fun p => isCreateOp p.1 && p.2)).length ∧
     (sync_schedule_to_calendar sampleCfg gwFailFirst [] [plainRun0]
      false).res.updated =
      ((sync_schedule_to_calendar sampleCfg gwFailFirst [] [plainRun0]
        false).trace.filter (fun p => isUpdateOp p.1 && p.2)).length ∧
     (sync_schedule_to_calendar sampleCfg gwFailFirst [] [plainRun0]
      false).res.deleted =
      ((sync_schedule_to_calendar sampleCfg gwFailFirst [] [plainRun0]
        false).trace.filter (fun p => isDeleteOp p.1 && p.2)).length ∧
     (sync_schedule_to_calendar sampleCfg gwFailFirst [] [plainRun0]
      false).res.errors.length =
      ((sync_schedule_to_calendar sampleCfg gwFailFirst [] [plainRun0]
        false).trace.filter (fun p => !p.2)).length) ∧
    (sync_schedule_to_calendar sampleCfg gwFailFirst [] [plainRun0]
      false).trace.map Prod.fst =
      (sync_schedule_to_calendar sampleCfg (withAllOk gwFailFirst) []
        [plainRun0] false).trace.map Prod.fst :=
  ⟨rfl, claim7_per_item_failure_is_isolated sampleCfg gwFailFirst []
    [plainRun0] rfl⟩

/-! ### Date-index lemmas -/

theorem dictInsert_mem {d : DateDict} {k : Int} {v : GEvent} {p : Int × GEvent}
    (h : p ∈ dictInsert d k v) : p ∈ d ∨ p = (k, v) := by
  unfold dictInsert at h
  by_cases hk : d.any (fun q => q.1 == k)
  · rw [if_pos hk] at h
    obtain ⟨q, hq, hfq⟩ := List.mem_map.mp h
    by_cases hqk : q.1 == k
    · right; rw [if_pos hqk] at hfq; exact hfq.symm
    · left; rw [if_neg hqk] at hfq; exact hfq ▸ hq
  · rw [if_neg hk] at h
    rcases List.mem_append.mp h with h1 | h1
    · exact Or.inl h1
    · exact Or.inr (List.mem_singleton.mp h1)

theorem indexEvents_entry {evs : List GEvent} :
    ∀ p ∈ indexEvents evs, p.2 ∈ evs ∧ p.2.start_date = some p.1 := by
  unfold indexEvents
  refine foldl_preserves indexStep
    (fun d => ∀ p : Int × GEvent, p ∈ d → p.2 ∈ evs ∧ p.2.start_date = some p.1)
    evs [] ?_ (by intro p hp; cases hp)
  intro d e he hd p hp
  cases hsd : e.start_date with
  | none => exact hd p (by simpa [indexStep, hsd] using hp)
  | some dt =>
    rcases dictInsert_mem (by simpa [indexStep, hsd] using hp) with h1 | h1
    · exact hd p h1
    · subst h1; exact ⟨he, hsd⟩

theorem dictGet_mem {d : DateDict} {k : Int} {v : GEvent}
    (h : dictGet d k = some v) : (k, v) ∈ d := by
  unfold dictGet at h
  cases hf : d.find? (fun q => q.1 == k) with
  | none => rw [hf] at h; cases h
  | some q =>
    rw [hf] at h
    have hq : q ∈ d := List.mem_of_find?_eq_some hf
    have hk := List.find?_some hf
    have hv : q.2 = v := by simpa using h
    have hk2 : q.1 = k := by simpa using hk
    have hqkv : q = (k, v) := by
      cases q
      simp_all
    exact hqkv ▸ hq

theorem dictGet_none_of_keys {d : DateDict} {k : Int}
    (h : ∀ p ∈ d, p.1 ≠ k) : dictGet d k = none := by
  unfold dictGet
  rw [List.find?_eq_none.mpr]
  · rfl
  · intro p hp
    simpa using h p hp

theorem dictDel_mem {d : DateDict} {k : Int} {p : Int × GEvent}
    (h : p ∈ dictDel d k) : p ∈ d :=
  List.mem_of_mem_filter h

/-! ### Per-step structural lemmas on the loops -/

theorem processRun_dict_shape (cfg : Config) (gw : Gateway) (dr : Bool)
    (st : SyncState) (run : ScheduledRun) :
    (processRun cfg gw dr st run).dict = st.dict ∨
    (processRun cfg gw dr st run).dict = dictDel st.dict run.date := by
  unfold processRun issueCall
  cases hexn : st.exn with
  | some m => left; simp [hexn]
  | none =>
    simp only [hexn, Option.isSome_none, Bool.false_eq_true, if_false]
    by_cases hc : (run.is_cancelled || is_no_run cfg run.date) = true
    · simp only [hc, if_true]
      cases hg : dictGet st.dict run.date with
      | none => left; simp [hg]
      | some ev =>
        left
        cases dr <;> cases hok : gw.write_ok st.call_idx <;> simp [hg, hok]
    · simp only [hc, Bool.false_eq_true, if_false]
      cases hb : build_calendar_event cfg run with
      | error m => left; simp [hb]
      | ok desired =>
        cases hg : dictGet st.dict run.date with
        | none =>
          left
          cases dr <;> cases hok : gw.write_ok st.call_idx <;>
            simp [hb, hg, hok]
        | some ev =>
          right
          cases dr <;> cases hok : gw.write_ok st.call_idx <;>
            simp [hb, hg, hok]

theorem processRun_dict_shrinks (cfg : Config) (gw : Gateway) (dr : Bool)
    (st : SyncState) (run : ScheduledRun) :
    ∀ q ∈ (processRun cfg gw dr st run).dict, q ∈ st.dict := by
  intro q hq
  rcases processRun_dict_shape cfg gw dr st run with h | h
  · exact h ▸ hq
  · exact dictDel_mem (h ▸ hq)

theorem processRun_trace_shape (cfg : Config) (gw : Gateway) (dr : Bool)
    (st : SyncState) (run : ScheduledRun) :
    (processRun cfg gw dr st run).trace = st.trace ∨
    (∃ ev ok, (run.date, ev) ∈ st.dict ∧
      (processRun cfg gw dr st run).trace =
        st.trace ++ [(GOp.delete ev.id, ok)]) ∨
    (∃ ev desired ok, (run.date, ev) ∈ st.dict ∧
      (processRun cfg gw dr st run).trace =
        st.trace ++ [(GOp.update ev.id desired, ok)]) ∨
    (∃ desired ok, (processRun cfg gw dr st run).trace =
      st.trace ++ [(GOp.create desired, ok)]) := by
  unfold processRun issueCall
  cases hexn : st.exn with
  | some m => left; simp [hexn]
  | none =>
    simp only [hexn, Option.isSome_none, Bool.false_eq_true, if_false]
    by_cases hc : (run.is_cancelled || is_no_run cfg run.date) = true
    · simp only [hc, if_true]
      cases hg : dictGet st.dict run.date with
      | none => left; simp [hg]
      | some ev =>
        have hmem : (run.date, ev) ∈ st.dict := dictGet_mem hg
        cases dr with
        | false =>
          cases hok : gw.write_ok st.call_idx with
          | false =>
            right; left
            exact ⟨ev, false, hmem, by simp [hg, hok]⟩
          | true =>
            right; left
            exact ⟨ev, true, hmem, by simp [hg, hok]⟩
        | true => left; simp [hg]
    · simp only [hc, Bool.false_eq_true, if_false]
      cases hb : build_calendar_event cfg run with
      | error m => left; simp [hb]
      | ok desired =>
        cases hg : dictGet st.dict run.date with
        | none =>
          cases dr with
          | false =>
            cases hok : gw.write_ok st.call_idx with
            | false =>
              right; right; right
              exact ⟨desired, false, by simp [hb, hg, hok]⟩
            | true =>
              right; right; right
              exact ⟨desired, true, by simp [hb, hg, hok]⟩
          | true => left; simp [hb, hg]
        | some ev =>
          have hmem : (run.date, ev) ∈ st.dict := dictGet_mem hg
          cases dr with
          | false =>
            cases hok : gw.write_ok st.call_idx with
            | false =>
              right; right; left
              exact ⟨ev, desired, false, hmem, by simp [hb, hg, hok]⟩
            | true =>
              right; right; left
              exact ⟨ev, desired, true, hmem, by simp [hb, hg, hok]⟩
          | true => left; simp [hb, hg]

theorem processRun_trace_ops (cfg : Config) (gw : Gateway) (dr : Bool)
    (st : SyncState) (run : ScheduledRun) :
    ∀ p ∈ (processRun cfg gw dr st run).trace, p ∈ st.trace ∨
      (∀ i, opTouches p.1 i = true → ∃ q ∈ st.dict, q.2.id = i) := by
  intro p hp
  rcases processRun_trace_shape cfg gw dr st run with h | h | h | h
  · exact Or.inl (h ▸ hp)
  · obtain ⟨ev, ok, hmem, htr⟩ := h
    rw [htr] at hp
    rcases List.mem_append.mp hp with h1 | h1
    · exact Or.inl h1
    · refine Or.inr ?_
      intro i hi
      have hp2 : p = (GOp.delete ev.id, ok) := List.mem_singleton.mp h1
      rw [hp2] at hi
      exact ⟨(run.date, ev), hmem, by simpa [opTouches] using hi⟩
  · obtain ⟨ev, desired, ok, hmem, htr⟩ := h
    rw [htr] at hp
    rcases List.mem_append.mp hp with h1 | h1
    · exact Or.inl h1
    · refine Or.inr ?_
      intro i hi
      have hp2 : p = (GOp.update ev.id desired, ok) := List.mem_singleton.mp h1
      rw [hp2] at hi
      exact ⟨(run.date, ev), hmem, by simpa [opTouches] using hi⟩
  · obtain ⟨desired, ok, htr⟩ := h
    rw [htr] at hp
    rcases List.mem_append.mp hp with h1 | h1
    · exact Or.inl h1
    · refine Or.inr ?_
      intro i hi
      have hp2 : p = (GOp.create desired, ok) := List.mem_singleton.mp h1
      rw [hp2] at hi
      simp [opTouches] at hi

theorem processOrphan_dict_eq (gw : Gateway) (dr : Bool) (st : SyncState)
    (q : Int × GEvent) : (processOrphan gw dr st q).dict = st.dict := by
  unfold processOrphan issueCall
  cases hexn : st.exn with
  | some m => simp [hexn]
  | none =>
    cases dr <;> cases hok : gw.write_ok st.call_idx <;> simp [hexn, hok]

theorem processOrphan_trace_shape (gw : Gateway) (dr : Bool) (st : SyncState)
    (q : Int × GEvent) :
    (processOrphan gw dr st q).trace = st.trace ∨
    (∃ ok, (processOrphan gw dr st q).trace =
      st.trace ++ [(GOp.delete q.2.id, ok)]) := by
  unfold processOrphan issueCall
  cases hexn : st.exn with
  | some m => left; simp [hexn]
  | none =>
    cases dr with
    | false =>
      cases hok : gw.write_ok st.call_idx with
      | false => right; exact ⟨false, by simp [hexn, hok]⟩
      | true => right; exact ⟨true, by simp [hexn, hok]⟩
    | true => left; simp [hexn]

theorem processOrphan_trace_ops (gw : Gateway) (dr : Bool) (st : SyncState)
    (q : Int × GEvent) :
    ∀ p ∈ (processOrphan gw dr st q).trace, p ∈ st.trace ∨
      (∀ i, opTouches p.1 i = true → q.2.id = i) := by
  intro p hp
  rcases processOrphan_trace_shape gw dr st q with h | h
  · exact Or.inl (h ▸ hp)
  · obtain ⟨ok, htr⟩ := h
    rw [htr] at hp
    rcases List.mem_append.mp hp with h1 | h1
    · exact Or.inl h1
    · refine Or.inr ?_
      intro i hi
      have hp2 : p = (GOp.delete q.2.id, ok) := List.mem_singleton.mp h1
      rw [hp2] at hi
      simpa [opTouches] using hi

theorem processRun_trace_grows (cfg : Config) (gw : Gateway) (dr : Bool)
    (st : SyncState) (run : ScheduledRun) :
    ∀ p ∈ st.trace, p ∈ (processRun cfg gw dr st run).trace := by
  intro p hp
  rcases processRun_trace_shape cfg gw dr st run with h | h | h | h
  · exact h ▸ hp
  · obtain ⟨ev, ok, _, htr⟩ := h
    rw [htr]; exact List.mem_append_left _ hp
  · obtain ⟨ev, desired, ok, _, htr⟩ := h
    rw [htr]; exact List.mem_append_left _ hp
  · obtain ⟨desired, ok, htr⟩ := h
    rw [htr]; exact List.mem_append_left _ hp

theorem processOrphan_trace_grows (gw : Gateway) (dr : Bool) (st : SyncState)
    (q : Int × GEvent) :
    ∀ p ∈ st.trace, p ∈ (processOrphan gw dr st q).trace := by
  intro p hp
  rcases processOrphan_trace_shape gw dr st q with h | h
  · exact h ▸ hp
  · obtain ⟨ok, htr⟩ := h
    rw [htr]; exact List.mem_append_left _ hp

theorem processRun_exn_none (cfg : Config) (gw : Gateway) (dr : Bool)
    (st : SyncState) (run : ScheduledRun) (hexn : st.exn = none)
    (hb : (build_calendar_event cfg run).isOk = true) :
    (processRun cfg gw dr st run).exn = none := by
  unfold processRun issueCall
  simp only [hexn, Option.isSome_none, Bool.false_eq_true, if_false]
  by_cases hc : (run.is_cancelled || is_no_run cfg run.date) = true
  · simp only [hc, if_true]
    cases hg : dictGet st.dict run.date with
    | none => simpa [hg] using hexn
    | some ev =>
      cases dr <;> cases hok : gw.write_ok st.call_idx <;>
        simp [hg, hok, hexn]
  · simp only [hc, Bool.false_eq_true, if_false]
    cases hbe : build_calendar_event cfg run with
    | error m => rw [hbe] at hb; simp [Except.isOk, Except.toBool] at hb
    | ok desired =>
      cases hg : dictGet st.dict run.date with
      | none =>
        cases dr <;> cases hok : gw.write_ok st.call_idx <;>
          simp [hbe, hg, hok, hexn]
      | some ev =>
        cases dr <;> cases hok : gw.write_ok st.call_idx <;>
          simp [hbe, hg, hok, hexn]

theorem processRun_create_trace (cfg : Config) (gw : Gateway)
    (st : SyncState) (run : ScheduledRun) (desired : CalendarEvent)
    (hexn : st.exn = none)
    (hc : (run.is_cancelled || is_no_run cfg run.date) = false)
    (hb : build_calendar_event cfg run = .ok desired)
    (hg : dictGet st.dict run.date = none) :
    (processRun cfg gw false st run).trace =
      st.trace ++ [(GOp.create desired, gw.write_ok st.call_idx)] := by
  unfold processRun issueCall
  simp only [hexn, Option.isSome_none, Bool.false_eq_true, if_false, hc, hb, hg]
  cases hok : gw.write_ok st.call_idx <;> simp [hok]

theorem build_ok_description (cfg : Config) (run : ScheduledRun)
    (ev : CalendarEvent) (hb : build_calendar_event cfg run = .ok ev) :
    ev.description = build_event_description cfg run := by
  unfold build_calendar_event at hb
  split at hb
  all_goals dsimp only at hb
  all_goals split at hb
  all_goals first
    | (injection hb with h; rw [← h])
    | cases hb

theorem marker_in_pyJoin (m : String) (L : List String) :
    pyInStr m (pyJoin "\n" (m :: L)) = true := by
  cases L with
  | nil =>
    unfold pyInStr pyJoin
    have := pyInChars_self_append m.toList []
    simpa using this
  | cons x xs =>
    unfold pyInStr pyJoin
    have h : (m ++ "\n" ++ pyJoin "\n" (x :: xs)).toList =
        m.toList ++ ("\n" ++ pyJoin "\n" (x :: xs)).toList := by
      simp [String.toList]
    rw [h]
    exact pyInChars_self_append m.toList _

/-- C4: reconciliation never issues an update or delete for a foreign event
(one whose description lacks the marker), and a date carrying only foreign
events whose run is active still gets a create for a fresh managed event. -/
theorem claim4_ownership_isolation (cfg : Config) (gw : Gateway)
    (cal : List GEvent) (runs : List ScheduledRun) (e : GEvent)
    (r : ScheduledRun)
    (hids : (cal.map (fun ev => ev.id)).Nodup)
    (he : e ∈ cal)
    (hforeign : is_managed_event e cfg.calendar.description_marker = false)
    (hr : r ∈ runs)
    (hactive : (r.is_cancelled || is_no_run cfg r.date) = false)
    (honly_foreign : ∀ ev ∈ cal,
      is_managed_event ev cfg.calendar.description_marker = true →
      ev.start_date ≠ some r.date)
    (hlist : gw.list_fails = false)
    (hbuilds : ∀ r' ∈ runs, (build_calendar_event cfg r').isOk = true) :
    (∀ p ∈ (sync_schedule_to_calendar cfg gw cal runs false).trace,
      opTouches p.1 e.id = false) ∧
    (∃ ev, build_calendar_event cfg r = Except.ok ev ∧
      GOp.create ev ∈
        (sync_schedule_to_calendar cfg gw cal runs false).trace.map Prod.fst ∧
      pyInStr cfg.calendar.description_marker ev.description = true) := by
  have hruns : runs.isEmpty = false := by
    cases runs with
    | nil => cases hr
    | cons a l => rfl
  unfold sync_schedule_to_calendar
  simp only [hruns, Bool.false_eq_true, if_false, hlist]
  set M : List GEvent := (list_events cal
      (minDate (runs.map fun r => r.date) - 1)
      (maxDate (runs.map fun r => r.date) + 1)).filter
    (fun ev => is_managed_event ev cfg.calendar.description_marker) with hM
  set st0 : SyncState :=
    { res := {}, dict := indexEvents M, cal := cal, trace := [],
      next_id := freshId cal, call_idx := 0, exn := none } with hst0
  have hMsub : ∀ ev ∈ M, ev ∈ cal ∧
      is_managed_event ev cfg.calendar.description_marker = true := by
    intro ev hev
    rw [hM] at hev
    have h2 := List.of_mem_filter hev
    exact ⟨List.mem_of_mem_filter (List.mem_of_mem_filter hev),
      by simpa using h2⟩
  -- the pooled invariant: every dict value is a managed listed event, and
  -- every issued update/delete targets the id of a managed listed event
  set Inv : SyncState → Prop := fun st =>
    (∀ q ∈ st.dict, q.2 ∈ M) ∧
    (∀ p ∈ st.trace, ∀ i, opTouches p.1 i = true → ∃ ev ∈ M, ev.id = i)
    with hInv
  have hInv0 : Inv st0 := by
    constructor
    · intro q hq
      exact (indexEvents_entry q hq).1
    · intro p hp; cases hp
  have hstep : ∀ (s : SyncState) (a : ScheduledRun), a ∈ runs → Inv s →
      Inv (processRun cfg gw false s a) := by
    intro s a _ hs
    constructor
    · intro q hq
      exact hs.1 q (processRun_dict_shrinks cfg gw false s a q hq)
    · intro p hp i hi
      rcases processRun_trace_ops cfg gw false s a p hp with h | h
      · exact hs.2 p h i hi
      · obtain ⟨q, hq, hqi⟩ := h i hi
        exact ⟨q.2, hs.1 q hq, hqi⟩
  have hInv1 : Inv (runs.foldl (processRun cfg gw false) st0) :=
    foldl_preserves (processRun cfg gw false) Inv runs st0 hstep hInv0
  set st1 := runs.foldl (processRun cfg gw false) st0 with hst1
  have hInv2 : Inv (st1.dict.foldl (processOrphan gw false) st1) := by
    refine foldl_preserves (processOrphan gw false)
      (fun s => (∀ q ∈ s.dict, q.2 ∈ M) ∧
        (∀ p ∈ s.trace, ∀ i, opTouches p.1 i = true → ∃ ev ∈ M, ev.id = i))
      st1.dict st1 ?_ hInv1
    intro s a ha hs
    constructor
    · intro q hq
      rw [processOrphan_dict_eq gw false s a] at hq
      exact hs.1 q hq
    · intro p hp i hi
      rcases processOrphan_trace_ops gw false s a p hp with h | h
      · exact hs.2 p h i hi
      · exact ⟨a.2, hInv1.1 a ha, h i hi⟩
  constructor
  · -- part 1: no write call touches the foreign event's id
    intro p hp
    by_contra hne
    have hti : opTouches p.1 e.id = true := by
      cases hb : opTouches p.1 e.id with
      | false => exact absurd hb hne
      | true => rfl
    obtain ⟨ev, hev, hevid⟩ := hInv2.2 p hp e.id hti
    obtain ⟨hevcal, hevman⟩ := hMsub ev hev
    have : ev = e := List.inj_on_of_nodup_map hids hevcal he hevid
    rw [this, hforeign] at hevman
    cases hevman
  · -- part 2: an active run on an all-foreign date still creates
    obtain ⟨l1, l2, hsplit⟩ := List.append_of_mem hr
    obtain ⟨desired, hdes⟩ : ∃ v, build_calendar_event cfg r = .ok v := by
      have := hbuilds r hr
      cases hbe : build_calendar_event cfg r with
      | ok v => exact ⟨v, rfl⟩
      | error m => rw [hbe] at this; simp [Except.isOk, Except.toBool] at this
    refine ⟨desired, hdes, ?_, ?_⟩
    · -- the create call is issued when r is processed and survives
      set stA := l1.foldl (processRun cfg gw false) st0 with hstA
      have hA : stA.exn = none ∧ ∀ q ∈ stA.dict, q ∈ st0.dict := by
        refine foldl_preserves (processRun cfg gw false)
          (fun s => s.exn = none ∧ ∀ q ∈ s.dict, q ∈ st0.dict) l1 st0 ?_
          ⟨rfl, fun q hq => hq⟩
        intro s a ha hs
        refine ⟨processRun_exn_none cfg gw false s a hs.1
          (hbuilds a (by rw [hsplit]; exact List.mem_append_left (r :: l2) ha)), ?_⟩
        intro q hq
        exact hs.2 q (processRun_dict_shrinks cfg gw false s a q hq)
      have hgA : dictGet stA.dict r.date = none := by
        refine dictGet_none_of_keys ?_
        intro q hq hk
        have hq0 : q ∈ st0.dict := hA.2 q hq
        have hqe := indexEvents_entry q hq0
        obtain ⟨hqcal, hqman⟩ := hMsub q.2 hqe.1
        exact honly_foreign q.2 hqcal hqman (hk ▸ hqe.2)
      have hcreate : GOp.create desired ∈
          ((processRun cfg gw false stA r).trace.map Prod.fst) := by
        rw [processRun_create_trace cfg gw stA r desired hA.1 hactive hdes hgA]
        simp
      -- membership survives the rest of the run loop and the orphan loop
      have hmono1 : ∀ p ∈ (processRun cfg gw false stA r).trace,
          p ∈ st1.trace := by
        rw [hst1, hsplit, List.foldl_append, List.foldl_cons, ← hstA]
        intro p hp
        refine foldl_preserves (processRun cfg gw false)
          (fun s => p ∈ s.trace) l2 (processRun cfg gw false stA r) ?_ hp
        intro s a _ hs
        exact processRun_trace_grows cfg gw false s a p hs
      have hmono2 : ∀ p ∈ st1.trace,
          p ∈ (st1.dict.foldl (processOrphan gw false) st1).trace := by
        intro p hp
        refine foldl_preserves (processOrphan gw false)
          (fun s => p ∈ s.trace) st1.dict st1 ?_ hp
        intro s a _ hs
        exact processOrphan_trace_grows gw false s a p hs
      obtain ⟨pr, hpr, hprfst⟩ := List.mem_map.mp hcreate
      exact List.mem_map.mpr ⟨pr, hmono2 pr (hmono1 pr hpr), hprfst⟩
    · -- the created event is itself managed
      rw [build_ok_description cfg r desired hdes]
      unfold build_event_description
      exact marker_in_pyJoin cfg.calendar.description_marker (descLines r)

/-- Witness for C4: a lone foreign event on date 0 and an active run on the
same date — the pass touches nothing with id 7 and still issues the create. -/
theorem claim4_witness :
    (∀ p ∈ (sync_schedule_to_calendar sampleCfg gwAllOk [foreignEv0]
      [plainRun0] false).trace, opTouches p.1 foreignEv0.id = false) ∧
    (∃ ev, build_calendar_event sampleCfg plainRun0 = Except.ok ev ∧
      GOp.create ev ∈
        (sync_schedule_to_calendar sampleCfg gwAllOk [foreignEv0]
          [plainRun0] false).trace.map Prod.fst ∧
      pyInStr sampleCfg.calendar.description_marker ev.description = true) :=
  claim4_ownership_isolation sampleCfg gwAllOk [foreignEv0] [plainRun0]
    foreignEv0 plainRun0 (by decide) (by decide) (by decide) (by decide)
    (by decide) (by decide) rfl (by decide)

/-! ### Computation rules for the date index -/

theorem dictGet_nil (j : Int) : dictGet [] j = none := rfl

theorem dictGet_cons (p : Int × GEvent) (d : DateDict) (j : Int) :
    dictGet (p :: d) j = if p.1 == j then some p.2 else dictGet d j := by
  by_cases hp : (p.1 == j) = true <;> simp [dictGet, List.find?_cons, hp]

theorem dictGet_append (d1 d2 : DateDict) (j : Int) :
    dictGet (d1 ++ d2) j =
      match dictGet d1 j with
      | some w => some w
      | none => dictGet d2 j := by
  induction d1 with
  | nil => simp [dictGet_nil]
  | cons p rest ih =>
    by_cases hp : (p.1 == j) = true <;>
      simp [List.cons_append, dictGet_cons, hp, ih]

theorem dictGet_map_overwrite_ne {k : Int} {v : GEvent} {j : Int} (hj : j ≠ k)
    (d : DateDict) :
    dictGet (d.map (fun q => if q.1 == k then (k, v) else q)) j =
      dictGet d j := by
  induction d with
  | nil => rfl
  | cons p rest ih =>
    by_cases hp : (p.1 == k) = true
    · have hp1 : p.1 = k := by simpa using hp
      have hkj : (k == j) = false := beq_eq_false_iff_ne.mpr (fun h => hj h.symm)
      have hpj : (p.1 == j) = false := by rw [hp1]; exact hkj
      rw [List.map_cons, if_pos hp, dictGet_cons, dictGet_cons, ih, hkj, hpj]
      simp
    · rw [List.map_cons, if_neg hp, dictGet_cons, dictGet_cons, ih]

theorem dictGet_map_overwrite_self {k : Int} {v : GEvent} (d : DateDict) :
    dictGet (d.map (fun q => if q.1 == k then (k, v) else q)) k =
      (dictGet d k).map (fun _ => v) := by
  induction d with
  | nil => rfl
  | cons p rest ih =>
    by_cases hp : (p.1 == k) = true
    · rw [List.map_cons, if_pos hp, dictGet_cons, dictGet_cons, hp]
      have hkk : ((k, v).1 == k) = true := by simp
      rw [hkk]
      simp
    · rw [List.map_cons, if_neg hp, dictGet_cons, dictGet_cons, if_neg hp,
        if_neg hp, ih]

theorem dictGet_dictInsert_self (d : DateDict) (k : Int) (v : GEvent) :
    dictGet (dictInsert d k v) k = some v := by
  unfold dictInsert
  by_cases h : d.any (fun q => q.1 == k)
  · rw [if_pos h, dictGet_map_overwrite_self]
    obtain ⟨q, hq, hqk⟩ := List.any_eq_true.mp h
    cases hg : dictGet d k with
    | some w => simp
    | none =>
      exfalso
      unfold dictGet at hg
      have := List.find?_eq_none.mp (by
        cases hf : d.find? (fun q => q.1 == k) with
        | none => rfl
        | some w => rw [hf] at hg; cases hg) q hq
      exact this hqk
  · rw [if_neg h, dictGet_append]
    cases hg : dictGet d k with
    | some w =>
      exfalso
      apply h
      exact List.any_eq_true.mpr ⟨(k, w), dictGet_mem hg, by simp⟩
    | none =>
      rw [dictGet_cons]
      simp

theorem dictGet_dictInsert_ne {j k : Int} (hj : j ≠ k) (d : DateDict)
    (v : GEvent) :
    dictGet (dictInsert d k v) j = dictGet d j := by
  unfold dictInsert
  by_cases h : d.any (fun q => q.1 == k)
  · rw [if_pos h, dictGet_map_overwrite_ne hj]
  · rw [if_neg h, dictGet_append]
    have hkj : (k == j) = false := beq_eq_false_iff_ne.mpr (fun hh => hj hh.symm)
    cases hg : dictGet d j with
    | some w => rfl
    | none => rw [dictGet_cons, hkj]; simp [dictGet_nil]

theorem dictGet_dictDel_ne {j k : Int} (hj : j ≠ k) (d : DateDict) :
    dictGet (dictDel d k) j = dictGet d j := by
  induction d with
  | nil => rfl
  | cons p rest ih =>
    unfold dictDel at ih ⊢
    rw [List.filter_cons]
    by_cases hp : (p.1 != k) = true
    · rw [if_pos hp, dictGet_cons, dictGet_cons, ih]
    · have hp1 : p.1 = k := by simpa using hp
      have hpj : (p.1 == j) = false := by
        rw [hp1]
        exact beq_eq_false_iff_ne.mpr (fun hh => hj hh.symm)
      rw [if_neg hp, dictGet_cons, ih, hpj]
      simp

theorem dictKeys_dictInsert_nodup {d : DateDict} {k : Int} {v : GEvent}
    (h : (dictKeys d).Nodup) : (dictKeys (dictInsert d k v)).Nodup := by
  unfold dictInsert
  by_cases ha : d.any (fun q => q.1 == k)
  · rw [if_pos ha]
    have hkeys : dictKeys (d.map (fun q => if q.1 == k then (k, v) else q)) =
        dictKeys d := by
      unfold dictKeys
      rw [List.map_map]
      refine List.map_congr_left ?_
      intro q _
      simp only [Function.comp_apply]
      by_cases hq : (q.1 == k) = true
      · rw [if_pos hq]
        exact ((by simpa using hq : q.1 = k)).symm
      · rw [if_neg hq]
    rw [hkeys]
    exact h
  · rw [if_neg ha]
    have hk : k ∉ dictKeys d := by
      intro hmem
      apply ha
      obtain ⟨q, hq, hqk⟩ := List.mem_map.mp hmem
      exact List.any_eq_true.mpr ⟨q, hq, by simp [hqk]⟩
    unfold dictKeys at *
    simpa [List.nodup_append, hk] using h

theorem indexEvents_keys_nodup (evs : List GEvent) :
    (dictKeys (indexEvents evs)).Nodup := by
  unfold indexEvents
  refine foldl_preserves indexStep (fun d => (dictKeys d).Nodup) evs []
    ?_ (by simp [dictKeys])
  intro s a _ hs
  cases hsd : a.start_date with
  | none => simpa [indexStep, hsd] using hs
  | some dt =>
    simp only [indexStep, hsd]
    exact dictKeys_dictInsert_nodup hs

theorem indexEvents_get_unique {evs : List GEvent} {e : GEvent} {d : Int}
    (he : e ∈ evs) (hd : e.start_date = some d)
    (huniq : ∀ x ∈ evs, x.start_date = some d → x = e) :
    dictGet (indexEvents evs) d = some e := by
  unfold indexEvents
  obtain ⟨l1, l2, hsplit⟩ := List.append_of_mem he
  subst hsplit
  rw [List.foldl_append, List.foldl_cons]
  have hmid : dictGet (indexStep (l1.foldl indexStep []) e) d = some e := by
    simp only [indexStep, hd]
    exact dictGet_dictInsert_self _ _ _
  refine foldl_preserves indexStep (fun dd => dictGet dd d = some e) l2 _
    ?_ hmid
  intro s x hx hs
  cases hsd : x.start_date with
  | none => simpa [indexStep, hsd] using hs
  | some dt =>
    simp only [indexStep, hsd]
    by_cases hdt : dt = d
    · subst hdt
      have hx2 : x = e := huniq x
        (by exact List.mem_append_right l1 (List.mem_cons_of_mem e hx)) hsd
      subst hx2
      exact dictGet_dictInsert_self _ _ _
    · rw [dictGet_dictInsert_ne (fun hh => hdt hh.symm)]
      exact hs

theorem mem_list_events {cal : List GEvent} {s t : Int} {e : GEvent}
    {d0 : Int} (he : e ∈ cal) (hd : e.start_date = some d0) (h1 : s ≤ d0)
    (h2 : d0 ≤ t) : e ∈ list_events cal s t := by
  unfold list_events
  refine List.mem_filter.mpr ⟨he, ?_⟩
  simp [hd, h1, h2]

theorem nodup_all_eq_length_le_one {α : Type _} (l : List α) (a : α)
    (h : l.Nodup) (ha : ∀ x ∈ l, x = a) : l.length ≤ 1 := by
  cases l with
  | nil => simp
  | cons x rest =>
    cases rest with
    | nil => simp
    | cons y rest2 =>
      exfalso
      have hx := ha x (by simp)
      have hy := ha y (by simp)
      rw [List.nodup_cons] at h
      exact h.1 (by rw [hx, ← hy]; simp)

theorem processOrphan_exn (gw : Gateway) (dr : Bool) (st : SyncState)
    (q : Int × GEvent) : (processOrphan gw dr st q).exn = st.exn := by
  unfold processOrphan issueCall
  cases hexn : st.exn with
  | some m => simp [hexn]
  | none =>
    cases dr <;> cases hok : gw.write_ok st.call_idx <;> simp [hexn, hok]

theorem processOrphan_live_trace (gw : Gateway) (st : SyncState)
    (q : Int × GEvent) (hexn : st.exn = none) :
    (processOrphan gw false st q).trace =
      st.trace ++ [(GOp.delete q.2.id, gw.write_ok st.call_idx)] := by
  unfold processOrphan issueCall
  simp only [hexn, Option.isSome_none, Bool.false_eq_true, if_false]
  cases hok : gw.write_ok st.call_idx <;> simp [hok]

theorem orphan_fold_delete_count (gw : Gateway) (i : Nat) :
    ∀ (l : DateDict) (st : SyncState), st.exn = none →
      (((l.foldl (processOrphan gw false) st).trace.map Prod.fst).count
        (GOp.delete i)) =
      ((st.trace.map Prod.fst).count (GOp.delete i)) +
        (l.countP (fun q => q.2.id == i))
  | [], st, _ => by simp
  | q :: l, st, hexn => by
    rw [List.foldl_cons]
    have hexn2 : (processOrphan gw false st q).exn = none :=
      (processOrphan_exn gw false st q).trans hexn
    rw [orphan_fold_delete_count gw i l _ hexn2,
      processOrphan_live_trace gw st q hexn]
    by_cases hq : (q.2.id == i) = true
    · have hqi : q.2.id = i := by simpa using hq
      simp [List.map_append, List.count_append, List.countP_cons, hq, hqi]
      omega
    · have hqi : q.2.id ≠ i := by simpa using hq
      have hne : GOp.delete q.2.id ≠ GOp.delete i := by simp [hqi]
      simp [List.map_append, List.count_append, List.countP_cons, hq,
        List.count_singleton, hne]

/-- C5 counterexample: two managed events share orphan date 5 (ids 1 and 2),
one run on date 4 puts them in the window. Indexing keeps only the later
event, so the pass never deletes event 1 — not every managed orphan event
gets a delete. -/
theorem claim5_counterexample :
    is_managed_event managedEv5a sampleCfg.calendar.description_marker = true ∧
    managedEv5a.start_date = some 5 ∧
    (∀ r ∈ [plainRun4], r.date ≠ 5) ∧
    ((sync_schedule_to_calendar sampleCfg gwAllOk [managedEv5a, managedEv5b]
      [plainRun4] false).trace.map Prod.fst).count
        (GOp.delete managedEv5a.id) = 0 := by
  refine ⟨by decide, rfl, by decide, by decide⟩

/-- C5 (amended): an orphan managed event that is the *only* managed event on
its date gets exactly one delete call issued for it, provided event ids are
unique, the listing succeeds and every event build succeeds. -/
theorem claim5_orphan_single_delete (cfg : Config) (gw : Gateway)
    (cal : List GEvent) (runs : List ScheduledRun) (e : GEvent) (d : Int)
    (hne : runs ≠ [])
    (hlist : gw.list_fails = false)
    (hbuilds : ∀ r' ∈ runs, (build_calendar_event cfg r').isOk = true)
    (hids : (cal.map (fun ev => ev.id)).Nodup)
    (he : e ∈ cal)
    (hman : is_managed_event e cfg.calendar.description_marker = true)
    (hdate : e.start_date = some d)
    (hwin1 : minDate (runs.map (fun r => r.date)) - 1 ≤ d)
    (hwin2 : d ≤ maxDate (runs.map (fun r => r.date)) + 1)
    (hnorun : ∀ r ∈ runs, r.date ≠ d)
    (huniq : ∀ x ∈ cal,
      is_managed_event x cfg.calendar.description_marker = true →
      x.start_date = some d → x = e) :
    ((sync_schedule_to_calendar cfg gw cal runs false).trace.map
      Prod.fst).count (GOp.delete e.id) = 1 := by
  have hruns : runs.isEmpty = false := by
    cases runs with
    | nil => exact absurd rfl hne
    | cons a l => rfl
  unfold sync_schedule_to_calendar
  simp only [hruns, Bool.false_eq_true, if_false, hlist]
  set M : List GEvent := (list_events cal
      (minDate (runs.map fun r => r.date) - 1)
      (maxDate (runs.map fun r => r.date) + 1)).filter
    (fun ev => is_managed_event ev cfg.calendar.description_marker) with hM
  have hMsub : ∀ ev ∈ M, ev ∈ cal ∧
      is_managed_event ev cfg.calendar.description_marker = true := by
    intro ev hev
    rw [hM] at hev
    have h2 := List.of_mem_filter hev
    exact ⟨List.mem_of_mem_filter (List.mem_of_mem_filter hev),
      by simpa using h2⟩
  have heM : e ∈ M := by
    rw [hM]
    exact List.mem_filter.mpr
      ⟨mem_list_events he hdate hwin1 hwin2, by simpa using hman⟩
  have hget0 : dictGet (indexEvents M) d = some e := by
    refine indexEvents_get_unique heM hdate ?_
    intro x hx hxd
    obtain ⟨hxc, hxm⟩ := hMsub x hx
    exact huniq x hxc hxm hxd
  set st0 : SyncState :=
    { res := {}, dict := indexEvents M, cal := cal, trace := [],
      next_id := freshId cal, call_idx := 0, exn := none } with hst0
  set P : SyncState → Prop := fun st =>
    st.exn = none ∧
    dictGet st.dict d = some e ∧
    (∀ q ∈ st.dict, q ∈ indexEvents M) ∧
    (dictKeys st.dict).Nodup ∧
    (st.trace.map Prod.fst).count (GOp.delete e.id) = 0
    with hP
  have hid_unique : ∀ x ∈ M, x.id = e.id → x = e := by
    intro x hx hxe
    exact List.inj_on_of_nodup_map hids (hMsub x hx).1 he hxe
  have hP0 : P st0 := by
    refine ⟨rfl, hget0, fun q hq => hq, indexEvents_keys_nodup M, rfl⟩
  have hstep : ∀ (s : SyncState) (a : ScheduledRun), a ∈ runs → P s →
      P (processRun cfg gw false s a) := by
    intro s a ha hs
    obtain ⟨hs1, hs2, hs3, hs4, hs5⟩ := hs
    refine ⟨processRun_exn_none cfg gw false s a hs1 (hbuilds a ha),
      ?_, ?_, ?_, ?_⟩
    · rcases processRun_dict_shape cfg gw false s a with hsh | hsh <;> rw [hsh]
      · exact hs2
      · rw [dictGet_dictDel_ne (fun hh => hnorun a ha hh.symm)]
        exact hs2
    · intro q hq
      exact hs3 q (processRun_dict_shrinks cfg gw false s a q hq)
    · rcases processRun_dict_shape cfg gw false s a with hsh | hsh <;> rw [hsh]
      · exact hs4
      · exact ((List.filter_sublist s.dict).map Prod.fst).nodup hs4
    · rcases processRun_trace_shape cfg gw false s a with hsh | hsh | hsh | hsh
      · rw [hsh]; exact hs5
      · obtain ⟨ev, ok, hmem, htr⟩ := hsh
        have hevM := indexEvents_entry _ (hs3 _ hmem)
        have hne2 : GOp.delete ev.id ≠ GOp.delete e.id := by
          intro hc
          have hevid : ev.id = e.id := by injection hc
          have : ev = e := hid_unique ev hevM.1 hevid
          rw [this, hdate] at hevM
          have : a.date = d := by injection hevM.2.symm
          exact hnorun a ha this
        rw [htr]
        simp [List.map_append, List.count_append, hs5,
          List.count_singleton, hne2]
      · obtain ⟨ev, desired, ok, hmem, htr⟩ := hsh
        rw [htr]
        simp [List.map_append, List.count_append, hs5]
      · obtain ⟨desired, ok, htr⟩ := hsh
        rw [htr]
        simp [List.map_append, List.count_append, hs5]
  have hP1 : P (runs.foldl (processRun cfg gw false) st0) :=
    foldl_preserves (processRun cfg gw false) P runs st0 hstep hP0
  set st1 := runs.foldl (processRun cfg gw false) st0 with hst1
  obtain ⟨h1exn, h1get, h1sub, h1keys, h1count⟩ := hP1
  rw [orphan_fold_delete_count gw e.id st1.dict st1 h1exn, h1count]
  -- the index holds exactly one entry whose value has e's id
  have hmem1 : (d, e) ∈ st1.dict := dictGet_mem h1get
  have hall : ∀ q ∈ st1.dict.filter (fun q => q.2.id == e.id), q = (d, e) := by
    intro q hq
    have hqd : q ∈ st1.dict := List.mem_of_mem_filter hq
    have hqid : q.2.id = e.id := by simpa using List.of_mem_filter hq
    have hent := indexEvents_entry _ (h1sub q hqd)
    have hqe : q.2 = e := hid_unique q.2 hent.1 hqid
    have hq1 : q.1 = d := by
      have := hent.2
      rw [hqe, hdate] at this
      injection this with hh
      exact hh.symm
    cases q with
    | mk x y =>
      simp only at hqe hq1
      rw [hqe, hq1]
  have hlen : (st1.dict.filter (fun q => q.2.id == e.id)).length = 1 := by
    have hmemf : (d, e) ∈ st1.dict.filter (fun q => q.2.id == e.id) :=
      List.mem_filter.mpr ⟨hmem1, by simp⟩
    have hge : 1 ≤ (st1.dict.filter (fun q => q.2.id == e.id)).length :=
      List.length_pos.mpr (fun hnil => by rw [hnil] at hmemf; cases hmemf)
    have hle : (st1.dict.filter (fun q => q.2.id == e.id)).length ≤ 1 := by
      have hsubl : ((st1.dict.filter (fun q => q.2.id == e.id)).map
          Prod.fst).Sublist (st1.dict.map Prod.fst) :=
        (List.filter_sublist st1.dict).map Prod.fst
      have hnd : ((st1.dict.filter (fun q => q.2.id == e.id)).map
          Prod.fst).Nodup := hsubl.nodup h1keys
      have hlen2 := nodup_all_eq_length_le_one _ d hnd (by
        intro x hx
        obtain ⟨q, hq, hqx⟩ := List.mem_map.mp hx
        rw [hall q hq] at hqx
        exact hqx.symm)
      simpa using hlen2
    omega
  rw [List.countP_eq_length_filter, hlen]

/-- Witness for C5 (amended) at concrete inputs: one managed event on orphan
date 5, one run on date 4. -/
theorem claim5_witness :
    ((sync_schedule_to_calendar sampleCfg gwAllOk [managedEv5a] [plainRun4]
      false).trace.map Prod.fst).count (GOp.delete managedEv5a.id) = 1 :=
  claim5_orphan_single_delete sampleCfg gwAllOk [managedEv5a] [plainRun4]
    managedEv5a 5 (by decide) rfl (by decide) (by decide) (by decide)
    (by decide) rfl (by decide) (by decide) (by decide) (by decide)

/-! ### Supporting lemmas for the two-pass (idempotence) analysis -/

theorem build_ok_day (cfg : Config) (run : ScheduledRun) (ev : CalendarEvent)
    (hb : build_calendar_event cfg run = .ok ev) :
    ev.start_time.day = run.date := by
  unfold build_calendar_event at hb
  split at hb
  all_goals dsimp only at hb
  all_goals split at hb
  all_goals first
    | (injection hb with h; rw [← h])
    | cases hb

theorem eventResource_managed (cfg : Config) (run : ScheduledRun)
    (ev : CalendarEvent) (i : Nat) (hb : build_calendar_event cfg run = .ok ev) :
    is_managed_event (eventResource i ev) cfg.calendar.description_marker
      = true := by
  unfold is_managed_event eventResource
  simp only [Option.getD_some]
  rw [build_ok_description cfg run ev hb]
  unfold build_event_description
  exact marker_in_pyJoin _ _

theorem eventResource_date (cfg : Config) (run : ScheduledRun)
    (ev : CalendarEvent) (i : Nat) (hb : build_calendar_event cfg run = .ok ev) :
    (eventResource i ev).start_date = some run.date := by
  unfold eventResource
  simp only
  rw [build_ok_day cfg run ev hb]

theorem foldl_min_le {α : Type _} [LinearOrder α] (l : List α) :
    ∀ a : α, l.foldl min a ≤ a ∧ ∀ x ∈ l, l.foldl min a ≤ x := by
  induction l with
  | nil => intro a; exact ⟨le_refl a, fun x hx => absurd hx (by simp)⟩
  | cons y rest ih =>
    intro a
    have h := ih (min a y)
    constructor
    · exact le_trans h.1 (min_le_left a y)
    · intro x hx
      rcases List.mem_cons.mp hx with h1 | h1
      · subst h1; exact le_trans h.1 (min_le_right a x)
      · exact h.2 x h1

theorem foldl_max_ge {α : Type _} [LinearOrder α] (l : List α) :
    ∀ a : α, a ≤ l.foldl max a ∧ ∀ x ∈ l, x ≤ l.foldl max a := by
  induction l with
  | nil => intro a; exact ⟨le_refl a, fun x hx => absurd hx (by simp)⟩
  | cons y rest ih =>
    intro a
    have h := ih (max a y)
    constructor
    · exact le_trans (le_max_left a y) h.1
    · intro x hx
      rcases List.mem_cons.mp hx with h1 | h1
      · subst h1; exact le_trans (le_max_right a x) h.1
      · exact h.2 x h1

theorem minDate_le {l : List Int} {x : Int} (hx : x ∈ l) : minDate l ≤ x :=
  (foldl_min_le l (l.headD 0)).2 x hx

theorem le_maxDate {l : List Int} {x : Int} (hx : x ∈ l) : x ≤ maxDate l :=
  (foldl_max_ge l (l.headD 0)).2 x hx

theorem mpAt_filter (m : String) (cal : List GEvent) (p : GEvent → Bool)
    (d : Int) : mpAt m (cal.filter p) d = (mpAt m cal d).filter p := by
  unfold mpAt
  rw [List.filter_filter, List.filter_filter]
  exact List.filter_congr (fun a _ => Bool.and_comm _ _)

theorem mpAt_append (m : String) (c1 c2 : List GEvent) (d : Int) :
    mpAt m (c1 ++ c2) d = mpAt m c1 d ++ mpAt m c2 d := by
  unfold mpAt
  exact List.filter_append c1 c2

theorem mpAt_mem {m : String} {cal : List GEvent} {d : Int} {x : GEvent}
    (hx : x ∈ mpAt m cal d) :
    x ∈ cal ∧ is_managed_event x m = true ∧ x.start_date = some d := by
  unfold mpAt at hx
  have h1 := List.mem_of_mem_filter hx
  have h2 := List.of_mem_filter hx
  simp only [Bool.and_eq_true, beq_iff_eq] at h2
  exact ⟨h1, h2.1, h2.2⟩

theorem mem_mpAt {m : String} {cal : List GEvent} {d : Int} {x : GEvent}
    (hx : x ∈ cal) (hman : is_managed_event x m = true)
    (hd : x.start_date = some d) : x ∈ mpAt m cal d := by
  unfold mpAt
  exact List.mem_filter.mpr ⟨hx, by simp [hman, hd]⟩

/-- If only one element passes the filter and the map replaces exactly that
element by `nw` (which still passes), the filtered map is `[nw]`. -/
theorem filter_map_of_filter_single {α : Type _} (p : α → Bool) (f : α → α)
    (ev nw : α) :
    ∀ l : List α, l.filter p = [ev] → (∀ x ∈ l, x = ev → f x = nw) →
      (∀ x ∈ l, x ≠ ev → f x = x) → p nw = true →
      (l.map f).filter p = [nw] := by
  intro l
  induction l with
  | nil => intro h; cases h
  | cons x rest ih =>
    intro h hfe hfx hpn
    rw [List.filter_cons] at h
    by_cases hx : p x = true
    · rw [if_pos hx] at h
      have hxe : x = ev := by injection h
      have hrest : rest.filter p = [] := by injection h
      have hnil : (rest.map f).filter p = [] := by
        rw [List.filter_eq_nil]
        intro z hz
        obtain ⟨y, hy, hyz⟩ := List.mem_map.mp hz
        have hyne : y ≠ ev := by
          intro hc
          have : y ∈ rest.filter p := List.mem_filter.mpr
            ⟨hy, by rw [hc, ← hxe]; exact hx⟩
          rw [hrest] at this
          cases this
        rw [← hyz, hfx y (List.mem_cons_of_mem x hy) hyne]
        have : y ∉ rest.filter p := by rw [hrest]; simp
        intro hpz
        exact this (List.mem_filter.mpr ⟨hy, hpz⟩)
      rw [List.map_cons, List.filter_cons,
        hfe x (List.mem_cons_self x rest) hxe, if_pos hpn, hnil]
    · rw [if_neg hx] at h
      have hxne : x ≠ ev := by
        intro hc
        apply hx
        rw [hc]
        have : ev ∈ rest.filter p := by rw [h]; simp
        exact List.of_mem_filter this
      rw [List.map_cons, List.filter_cons, hfx x (List.mem_cons_self x rest) hxne,
        if_neg hx]
      exact ih h (fun y hy => hfe y (List.mem_cons_of_mem x hy))
        (fun y hy => hfx y (List.mem_cons_of_mem x hy)) hpn

/-- If the map changes no element's filter-status and fixes every element
that passes, the filtered map equals the filtered list. -/
theorem filter_map_congr {α : Type _} (p : α → Bool) (f : α → α) :
    ∀ l : List α, (∀ x ∈ l, p (f x) = p x) → (∀ x ∈ l, p x = true → f x = x) →
      (l.map f).filter p = l.filter p := by
  intro l
  induction l with
  | nil => intro _ _; rfl
  | cons x rest ih =>
    intro h1 h2
    rw [List.map_cons, List.filter_cons, List.filter_cons]
    by_cases hx : p x = true
    · rw [if_pos hx, h2 x (List.mem_cons_self x rest) hx, if_pos hx,
        ih (fun y hy => h1 y (List.mem_cons_of_mem x hy))
          (fun y hy => h2 y (List.mem_cons_of_mem x hy))]
    · have hfx : p (f x) = false := by
        rw [h1 x (List.mem_cons_self x rest)]
        cases hpx : p x with
        | true => exact absurd hpx hx
        | false => rfl
      rw [if_neg (by rw [hfx]; exact Bool.false_ne_true), if_neg hx]
      exact ih (fun y hy => h1 y (List.mem_cons_of_mem x hy))
        (fun y hy => h2 y (List.mem_cons_of_mem x hy))

theorem processOrphan_live_cal (gw : Gateway) (st : SyncState)
    (q : Int × GEvent) (hexn : st.exn = none)
    (hok : ∀ n, gw.write_ok n = true) :
    (processOrphan gw false st q).cal =
      st.cal.filter (fun e => e.id != q.2.id) := by
  unfold processOrphan issueCall
  simp [hexn, hok]

theorem dictGet_dictDel_self (d : DateDict) (k : Int) :
    dictGet (dictDel d k) k = none := by
  refine dictGet_none_of_keys ?_
  intro p hp
  have := List.of_mem_filter hp
  simpa using this

theorem processOrphan_next_id (gw : Gateway) (dr : Bool) (st : SyncState)
    (q : Int × GEvent) : (processOrphan gw dr st q).next_id = st.next_id := by
  unfold processOrphan issueCall
  cases hexn : st.exn with
  | some m => simp [hexn]
  | none =>
    cases dr <;> cases hok : gw.write_ok st.call_idx <;> simp [hexn, hok]

/-- Full branch characterisation of a live run step (no pending exception,
all gateway calls succeeding, builder succeeding): which branch was taken
and the resulting calendar, index and fresh-id watermark. -/
theorem processRun_live_state (cfg : Config) (gw : Gateway) (st : SyncState)
    (run : ScheduledRun) (hexn : st.exn = none)
    (hok : ∀ n, gw.write_ok n = true)
    (hbuild : (build_calendar_event cfg run).isOk = true) :
    ((run.is_cancelled || is_no_run cfg run.date) = true ∧
      ((∃ ev, dictGet st.dict run.date = some ev ∧
        (processRun cfg gw false st run).cal =
          st.cal.filter (fun e => e.id != ev.id) ∧
        (processRun cfg gw false st run).dict = st.dict ∧
        (processRun cfg gw false st run).next_id = st.next_id) ∨
       (dictGet st.dict run.date = none ∧
        (processRun cfg gw false st run).cal = st.cal ∧
        (processRun cfg gw false st run).dict = st.dict ∧
        (processRun cfg gw false st run).next_id = st.next_id))) ∨
    ((run.is_cancelled || is_no_run cfg run.date) = false ∧
      ∃ desired, build_calendar_event cfg run = .ok desired ∧
      ((∃ ev, dictGet st.dict run.date = some ev ∧
        (processRun cfg gw false st run).cal =
          st.cal.map (fun e =>
            if e.id == ev.id then eventResource ev.id desired else e) ∧
        (processRun cfg gw false st run).dict = dictDel st.dict run.date ∧
        (processRun cfg gw false st run).next_id = st.next_id) ∨
       (dictGet st.dict run.date = none ∧
        (processRun cfg gw false st run).cal =
          st.cal ++ [eventResource st.next_id desired] ∧
        (processRun cfg gw false st run).dict = st.dict ∧
        (processRun cfg gw false st run).next_id = st.next_id + 1))) := by
  by_cases hc : (run.is_cancelled || is_no_run cfg run.date) = true
  · left
    refine ⟨hc, ?_⟩
    unfold processRun issueCall
    simp only [hexn, Option.isSome_none, Bool.false_eq_true, if_false, hc,
      if_true]
    cases hg : dictGet st.dict run.date with
    | some ev =>
      left
      refine ⟨ev, rfl, ?_, ?_, ?_⟩ <;> simp [hg, hok]
    | none =>
      right
      refine ⟨rfl, ?_, ?_, ?_⟩ <;> simp [hg]
  · right
    have hc2 : (run.is_cancelled || is_no_run cfg run.date) = false := by
      cases hcc : (run.is_cancelled || is_no_run cfg run.date) with
      | true => exact absurd hcc hc
      | false => rfl
    obtain ⟨desired, hb⟩ : ∃ v, build_calendar_event cfg run = .ok v := by
      cases hbe : build_calendar_event cfg run with
      | ok v => exact ⟨v, rfl⟩
      | error m => rw [hbe] at hbuild; simp [Except.isOk, Except.toBool] at hbuild
    refine ⟨hc2, desired, hb, ?_⟩
    unfold processRun issueCall
    simp only [hexn, Option.isSome_none, Bool.false_eq_true, if_false, hc2, hb]
    cases hg : dictGet st.dict run.date with
    | some ev =>
      left
      refine ⟨ev, rfl, ?_, ?_, ?_⟩ <;> simp [hg, hok]
    | none =>
      right
      refine ⟨rfl, ?_, ?_, ?_⟩ <;> simp [hg, hok]

theorem syncInv_step (cfg : Config) (gw : Gateway) (dict0 : DateDict)
    (st : SyncState) (run : ScheduledRun)
    (hok : ∀ n, gw.write_ok n = true)
    (hbuild : (build_calendar_event cfg run).isOk = true)
    (hG : syncInv cfg dict0 st) :
    syncInv cfg dict0 (processRun cfg gw false st run) := by
  obtain ⟨i1, i2, i3, i4, i5, i6, i7, i8⟩ := hG
  have hexn' := processRun_exn_none cfg gw false st run i1 hbuild
  rcases processRun_live_state cfg gw st run i1 hok hbuild with
    ⟨hc, hcase⟩ | ⟨hc, desired, hb, hcase⟩
  · rcases hcase with ⟨ev, hg, hcal, hdict, hnid⟩ | ⟨hg, hcal, hdict, hnid⟩
    · refine ⟨hexn', ?_, ?_, ?_, ?_, ?_, ?_, ?_⟩
      · rw [hcal]
        exact ((List.filter_sublist st.cal).map _).nodup i2
      · rw [hcal, hnid]
        intro e he
        exact i3 e (List.mem_of_mem_filter he)
      · rw [hdict, hnid]; exact i4
      · rw [hdict]; exact i5
      · rw [hdict, hcal]
        intro q hq e he hid
        exact i6 q hq e (List.mem_of_mem_filter he) hid
      · rw [hdict]; exact i7
      · rw [hdict]; exact i8
    · refine ⟨hexn', ?_, ?_, ?_, ?_, ?_, ?_, ?_⟩
      · rw [hcal]; exact i2
      · rw [hcal, hnid]; exact i3
      · rw [hdict, hnid]; exact i4
      · rw [hdict]; exact i5
      · rw [hdict, hcal]; exact i6
      · rw [hdict]; exact i7
      · rw [hdict]; exact i8
  · rcases hcase with ⟨ev, hg, hcal, hdict, hnid⟩ | ⟨hg, hcal, hdict, hnid⟩
    · -- update in place
      have hmem : (run.date, ev) ∈ st.dict := dictGet_mem hg
      have hids_eq : ((st.cal.map (fun e =>
          if e.id == ev.id then eventResource ev.id desired else e)).map
            (fun e => e.id)) = st.cal.map (fun e => e.id) := by
        rw [List.map_map]
        refine List.map_congr_left ?_
        intro e _
        simp only [Function.comp_apply]
        by_cases hh : (e.id == ev.id) = true
        · rw [if_pos hh]
          have he2 : e.id = ev.id := by simpa using hh
          simp [eventResource, he2]
        · rw [if_neg hh]
      refine ⟨hexn', ?_, ?_, ?_, ?_, ?_, ?_, ?_⟩
      · rw [hcal, hids_eq]; exact i2
      · rw [hcal, hnid]
        intro e he
        obtain ⟨x, hx, hxe⟩ := List.mem_map.mp he
        by_cases hh : (x.id == ev.id) = true
        · rw [if_pos hh] at hxe
          rw [← hxe]
          simpa [eventResource] using i4 _ hmem
        · rw [if_neg hh] at hxe
          rw [← hxe]
          exact i3 x hx
      · rw [hdict, hnid]
        intro q hq
        exact i4 q (dictDel_mem hq)
      · rw [hdict]
        intro q hq
        exact i5 q (dictDel_mem hq)
      · rw [hdict, hcal]
        intro q hq e he hid
        obtain ⟨x, hx, hxe⟩ := List.mem_map.mp he
        by_cases hh : (x.id == ev.id) = true
        · exfalso
          rw [if_pos hh] at hxe
          have hei : e.id = ev.id := by
            rw [← hxe]
            simp [eventResource]
          have hqv : q.2.id = ev.id := by rw [← hid, hei]
          have hq' : q ∈ st.dict := dictDel_mem hq
          have heq : q = (run.date, ev) :=
            List.inj_on_of_nodup_map i8 hq' hmem (by simpa using hqv)
          have hq1 : q.1 ≠ run.date := by
            have := List.of_mem_filter hq
            simpa using this
          exact hq1 (by rw [heq])
        · rw [if_neg hh] at hxe
          rw [← hxe] at hid ⊢
          exact i6 q (dictDel_mem hq) x hx hid
      · rw [hdict]
        exact ((List.filter_sublist st.dict).map _).nodup i7
      · rw [hdict]
        exact ((List.filter_sublist st.dict).map _).nodup i8
    · -- create appended with a fresh id
      refine ⟨hexn', ?_, ?_, ?_, ?_, ?_, ?_, ?_⟩
      · rw [hcal, List.map_append]
        have hnotin : st.next_id ∉ st.cal.map (fun e => e.id) := by
          intro hmem
          obtain ⟨e, he, hei⟩ := List.mem_map.mp hmem
          exact absurd (hei ▸ i3 e he) (lt_irrefl _)
        simpa [List.nodup_append, eventResource, i2] using hnotin
      · rw [hcal, hnid]
        intro e he
        rcases List.mem_append.mp he with h1 | h1
        · exact lt_trans (i3 e h1) (Nat.lt_succ_self _)
        · rw [List.mem_singleton.mp h1]
          simp [eventResource]
      · rw [hdict, hnid]
        intro q hq
        exact lt_trans (i4 q hq) (Nat.lt_succ_self _)
      · rw [hdict]; exact i5
      · rw [hdict, hcal]
        intro q hq e he hid
        rcases List.mem_append.mp he with h1 | h1
        · exact i6 q hq e h1 hid
        · exfalso
          have he2 : e.id = st.next_id := by
            rw [List.mem_singleton.mp h1]
            simp [eventResource]
          have := i4 q hq
          rw [← hid, he2] at this
          exact absurd this (lt_irrefl _)
      · rw [hdict]; exact i7
      · rw [hdict]; exact i8

theorem syncInv_orphan_step (cfg : Config) (gw : Gateway) (dict0 : DateDict)
    (st : SyncState) (q : Int × GEvent) (hok : ∀ n, gw.write_ok n = true)
    (hG : syncInv cfg dict0 st) :
    syncInv cfg dict0 (processOrphan gw false st q) := by
  obtain ⟨i1, i2, i3, i4, i5, i6, i7, i8⟩ := hG
  have hcal := processOrphan_live_cal gw st q i1 hok
  have hdict := processOrphan_dict_eq gw false st q
  have hnid := processOrphan_next_id gw false st q
  refine ⟨(processOrphan_exn gw false st q).trans i1, ?_, ?_, ?_, ?_, ?_,
    ?_, ?_⟩
  · rw [hcal]
    exact ((List.filter_sublist st.cal).map _).nodup i2
  · rw [hcal, hnid]
    intro e he
    exact i3 e (List.mem_of_mem_filter he)
  · rw [hdict, hnid]; exact i4
  · rw [hdict]; exact i5
  · rw [hdict, hcal]
    intro p hp e he hid
    exact i6 p hp e (List.mem_of_mem_filter he) hid
  · rw [hdict]; exact i7
  · rw [hdict]; exact i8

theorem syncInv_init (cfg : Config) (cal : List GEvent) (M : List GEvent)
    (hids : (cal.map (fun e => e.id)).Nodup)
    (hMsub : ∀ ev ∈ M, ev ∈ cal)
    (hMman : ∀ ev ∈ M,
      is_managed_event ev cfg.calendar.description_marker = true) :
    syncInv cfg (indexEvents M)
      { res := {}, dict := indexEvents M, cal := cal, trace := [],
        next_id := freshId cal, call_idx := 0, exn := none } := by
  have hfresh : ∀ e ∈ cal, e.id < freshId cal := by
    intro e he
    have := (foldl_max_ge (cal.map (fun e => e.id)) 0).2 e.id
      (List.mem_map.mpr ⟨e, he, rfl⟩)
    unfold freshId
    omega
  have hvalcal : ∀ q ∈ indexEvents M, q.2 ∈ cal :=
    fun q hq => hMsub q.2 (indexEvents_entry q hq).1
  refine ⟨rfl, hids, hfresh, ?_, fun q hq => hq, ?_, indexEvents_keys_nodup M,
    ?_⟩
  · intro q hq
    exact hfresh q.2 (hvalcal q hq)
  · intro q hq e he hid
    have hq2 := indexEvents_entry q hq
    have : e = q.2 := List.inj_on_of_nodup_map hids he (hvalcal q hq) hid
    rw [this]
    exact ⟨hMman q.2 hq2.1, hq2.2⟩
  · have hentries : (indexEvents M).Nodup :=
      (indexEvents_keys_nodup M).of_map
    refine hentries.map_on ?_
    intro q hq q2 hq2 hvid
    have h1 := indexEvents_entry q hq
    have h2 := indexEvents_entry q2 hq2
    have hval : q.2 = q2.2 :=
      List.inj_on_of_nodup_map hids (hMsub q.2 h1.1) (hMsub q2.2 h2.1) hvid
    have hkey : q.1 = q2.1 := by
      have h3 := h1.2
      rw [hval, h2.2] at h3
      injection h3 with hh
      exact hh.symm
    cases q with
    | mk a b =>
      cases q2 with
      | mk a2 b2 =>
        simp only at hval hkey
        rw [hval, hkey]

theorem keys_ne_of_dictGet_none {d : DateDict} {k : Int}
    (h : dictGet d k = none) : ∀ q ∈ d, q.1 ≠ k := by
  intro q hq
  unfold dictGet at h
  cases hf : d.find? (fun p => p.1 == k) with
  | some p => rw [hf] at h; cases h
  | none =>
    have := List.find?_eq_none.mp hf q hq
    simpa using this

/-- A run step at a date other than `d` leaves the managed content at `d`
and the index entry at `d` unchanged. -/
theorem step_ne_date (cfg : Config) (gw : Gateway) (dict0 : DateDict)
    (st : SyncState) (run : ScheduledRun) (d : Int)
    (hok : ∀ n, gw.write_ok n = true)
    (hbuild : (build_calendar_event cfg run).isOk = true)
    (hG : syncInv cfg dict0 st) (hnd : run.date ≠ d) :
    mpAt cfg.calendar.description_marker
      (processRun cfg gw false st run).cal d =
      mpAt cfg.calendar.description_marker st.cal d ∧
    dictGet (processRun cfg gw false st run).dict d = dictGet st.dict d := by
  obtain ⟨i1, i2, i3, i4, i5, i6, i7, i8⟩ := hG
  rcases processRun_live_state cfg gw st run i1 hok hbuild with
    ⟨hc, hcase⟩ | ⟨hc, desired, hb, hcase⟩
  · rcases hcase with ⟨ev, hg, hcal, hdict, hnid⟩ | ⟨hg, hcal, hdict, hnid⟩
    · constructor
      · rw [hcal, mpAt_filter]
        refine List.filter_eq_self.mpr ?_
        intro x hx
        obtain ⟨hxcal, hxman, hxd⟩ := mpAt_mem hx
        have hxid : x.id ≠ ev.id := by
          intro hcon
          have hdd := (i6 (run.date, ev) (dictGet_mem hg) x hxcal hcon).2
          rw [hxd] at hdd
          injection hdd with hh
          exact hnd hh.symm
        simpa using hxid
      · rw [hdict]
    · exact ⟨by rw [hcal], by rw [hdict]⟩
  · rcases hcase with ⟨ev, hg, hcal, hdict, hnid⟩ | ⟨hg, hcal, hdict, hnid⟩
    · have hmem := dictGet_mem hg
      constructor
      · rw [hcal]
        unfold mpAt
        refine filter_map_congr _ _ st.cal ?_ ?_
        · intro x hx
          by_cases hh : (x.id == ev.id) = true
          · rw [if_pos hh]
            have hxid : x.id = ev.id := by simpa using hh
            have hxdate := (i6 (run.date, ev) hmem x hx hxid).2
            have h1 : (is_managed_event (eventResource ev.id desired)
                cfg.calendar.description_marker &&
                ((eventResource ev.id desired).start_date == some d)) = false := by
              rw [eventResource_date cfg run desired ev.id hb]
              simp [hnd]
            have h2 : (is_managed_event x cfg.calendar.description_marker &&
                (x.start_date == some d)) = false := by
              rw [hxdate]
              simp [hnd]
            rw [h1, h2]
          · rw [if_neg hh]
        · intro x hx hpx
          by_cases hh : (x.id == ev.id) = true
          · exfalso
            have hxid : x.id = ev.id := by simpa using hh
            have hxdate := (i6 (run.date, ev) hmem x hx hxid).2
            rw [hxdate] at hpx
            simp [hnd] at hpx
          · rw [if_neg hh]
      · rw [hdict, dictGet_dictDel_ne (fun hh => hnd hh.symm)]
    · constructor
      · rw [hcal, mpAt_append]
        have hnew : mpAt cfg.calendar.description_marker
            [eventResource st.next_id desired] d = [] := by
          unfold mpAt
          rw [List.filter_cons]
          rw [eventResource_date cfg run desired st.next_id hb]
          simp [hnd]
        rw [hnew, List.append_nil]
      · rw [hdict]

/-- The run step at date `d` itself: a cancelled/no-run date ends with no
managed event at `d`; an active date ends with exactly one managed event
and its index entry claimed. -/
theorem step_at_date (cfg : Config) (gw : Gateway) (dict0 : DateDict)
    (st : SyncState) (run : ScheduledRun)
    (hok : ∀ n, gw.write_ok n = true)
    (hbuild : (build_calendar_event cfg run).isOk = true)
    (hG : syncInv cfg dict0 st)
    (hrel : (dictGet st.dict run.date).toList =
      mpAt cfg.calendar.description_marker st.cal run.date) :
    ((run.is_cancelled || is_no_run cfg run.date) = true →
      mpAt cfg.calendar.description_marker
        (processRun cfg gw false st run).cal run.date = []) ∧
    ((run.is_cancelled || is_no_run cfg run.date) = false →
      (∃ ev', mpAt cfg.calendar.description_marker
        (processRun cfg gw false st run).cal run.date = [ev']) ∧
      dictGet (processRun cfg gw false st run).dict run.date = none) := by
  obtain ⟨i1, i2, i3, i4, i5, i6, i7, i8⟩ := hG
  rcases processRun_live_state cfg gw st run i1 hok hbuild with
    ⟨hc, hcase⟩ | ⟨hc, desired, hb, hcase⟩
  · refine ⟨fun _ => ?_, fun hcon => absurd hc (by rw [hcon]; simp)⟩
    rcases hcase with ⟨ev, hg, hcal, hdict, hnid⟩ | ⟨hg, hcal, hdict, hnid⟩
    · have hmp : mpAt cfg.calendar.description_marker st.cal run.date
          = [ev] := by
        rw [← hrel, hg]
        rfl
      rw [hcal, mpAt_filter, hmp, List.filter_cons]
      simp
    · have hmp : mpAt cfg.calendar.description_marker st.cal run.date
          = [] := by
        rw [← hrel, hg]
        rfl
      rw [hcal, hmp]
  · refine ⟨fun hcon => absurd hcon (by rw [hc]; simp), fun _ => ?_⟩
    rcases hcase with ⟨ev, hg, hcal, hdict, hnid⟩ | ⟨hg, hcal, hdict, hnid⟩
    · have hmp : mpAt cfg.calendar.description_marker st.cal run.date
          = [ev] := by
        rw [← hrel, hg]
        rfl
      have hevcal : ev ∈ st.cal := (mpAt_mem (by rw [hmp]; simp :
        ev ∈ mpAt cfg.calendar.description_marker st.cal run.date)).1
      constructor
      · refine ⟨eventResource ev.id desired, ?_⟩
        rw [hcal]
        unfold mpAt at hmp ⊢
        refine filter_map_of_filter_single _ _ ev _ st.cal hmp ?_ ?_ ?_
        · intro x _ hxe
          subst hxe
          simp
        · intro x hx hxe
          have hxid : (x.id == ev.id) = false := by
            refine beq_eq_false_iff_ne.mpr ?_
            intro hcon
            exact hxe (List.inj_on_of_nodup_map i2 hx hevcal hcon)
          rw [if_neg (by rw [hxid]; exact Bool.false_ne_true)]
        · rw [eventResource_managed cfg run desired ev.id hb,
            eventResource_date cfg run desired ev.id hb]
          simp
      · rw [hdict]
        exact dictGet_dictDel_self _ _
    · have hmp : mpAt cfg.calendar.description_marker st.cal run.date
          = [] := by
        rw [← hrel, hg]
        rfl
      constructor
      · refine ⟨eventResource st.next_id desired, ?_⟩
        rw [hcal, mpAt_append, hmp, List.nil_append]
        unfold mpAt
        rw [List.filter_cons]
        have hp : (is_managed_event (eventResource st.next_id desired)
            cfg.calendar.description_marker &&
            ((eventResource st.next_id desired).start_date ==
              some run.date)) = true := by
          rw [eventResource_managed cfg run desired st.next_id hb,
            eventResource_date cfg run desired st.next_id hb]
          simp
        rw [if_pos hp]
        rfl
      · rw [hdict]
        exact hg

/-- Folding a stretch of runs none of which is dated `d` preserves the
invariant and the per-date observables at `d`. -/
theorem runloop_ne_date (cfg : Config) (gw : Gateway) (dict0 : DateDict)
    (d : Int) (hok : ∀ n, gw.write_ok n = true)
    (l : List ScheduledRun) (st : SyncState)
    (hl : ∀ r ∈ l, (build_calendar_event cfg r).isOk = true ∧ r.date ≠ d)
    (hG : syncInv cfg dict0 st) :
    syncInv cfg dict0 (l.foldl (processRun cfg gw false) st) ∧
    mpAt cfg.calendar.description_marker
      (l.foldl (processRun cfg gw false) st).cal d =
      mpAt cfg.calendar.description_marker st.cal d ∧
    dictGet (l.foldl (processRun cfg gw false) st).dict d =
      dictGet st.dict d := by
  refine foldl_preserves (processRun cfg gw false)
    (fun s => syncInv cfg dict0 s ∧
      mpAt cfg.calendar.description_marker s.cal d =
        mpAt cfg.calendar.description_marker st.cal d ∧
      dictGet s.dict d = dictGet st.dict d) l st ?_ ⟨hG, rfl, rfl⟩
  intro s a ha hs
  obtain ⟨hsG, hs1, hs2⟩ := hs
  have hstep := step_ne_date cfg gw dict0 s a d hok (hl a ha).1 hsG (hl a ha).2
  exact ⟨syncInv_step cfg gw dict0 s a hok (hl a ha).1 hsG,
    hstep.1.trans hs1, hstep.2.trans hs2⟩

/-- Folding orphan entries none of which is keyed `d` preserves a singleton
managed content at `d` (and the invariant; the index itself never changes). -/
theorem orphan_keep (cfg : Config) (gw : Gateway) (dict0 : DateDict)
    (d : Int) (ev' : GEvent) (hok : ∀ n, gw.write_ok n = true)
    (L : DateDict) (st : SyncState)
    (hkeys : ∀ q ∈ L, q.1 ≠ d)
    (hsub : ∀ q ∈ L, q ∈ st.dict)
    (hG : syncInv cfg dict0 st)
    (hmp : mpAt cfg.calendar.description_marker st.cal d = [ev']) :
    syncInv cfg dict0 (L.foldl (processOrphan gw false) st) ∧
    mpAt cfg.calendar.description_marker
      (L.foldl (processOrphan gw false) st).cal d = [ev'] ∧
    (L.foldl (processOrphan gw false) st).dict = st.dict := by
  refine foldl_preserves (processOrphan gw false)
    (fun s => syncInv cfg dict0 s ∧
      mpAt cfg.calendar.description_marker s.cal d = [ev'] ∧
      s.dict = st.dict) L st ?_ ⟨hG, hmp, rfl⟩
  intro s q hq hs
  obtain ⟨hsG, hs1, hs2⟩ := hs
  refine ⟨syncInv_orphan_step cfg gw dict0 s q hok hsG, ?_,
    (processOrphan_dict_eq gw false s q).trans hs2⟩
  rw [processOrphan_live_cal gw s q hsG.1 hok, mpAt_filter, hs1,
    List.filter_cons]
  have hev : (ev'.id != q.2.id) = true := by
    simp only [bne_iff_ne, ne_eq]
    intro hcon
    have hevmp : ev' ∈ mpAt cfg.calendar.description_marker s.cal d := by
      rw [hs1]; simp
    obtain ⟨hevcal, _, hevd⟩ := mpAt_mem hevmp
    have hqd := (hsG.2.2.2.2.2.1 q (hs2 ▸ hsub q hq) ev' hevcal hcon).2
    rw [hevd] at hqd
    injection hqd with hh
    exact hkeys q hq hh.symm
  rw [if_pos hev]
  rfl

/-- Folding orphan entries can only shrink the managed content at a date:
once empty it stays empty. -/
theorem orphan_nil (gw : Gateway) (m : String) (d : Int)
    (hok : ∀ n, gw.write_ok n = true) (L : DateDict) (st : SyncState)
    (hexn : st.exn = none) (hmp : mpAt m st.cal d = []) :
    mpAt m (L.foldl (processOrphan gw false) st).cal d = [] ∧
    (L.foldl (processOrphan gw false) st).exn = none := by
  have h := foldl_preserves (processOrphan gw false)
    (fun s => mpAt m s.cal d = [] ∧ s.exn = none) L st ?_ ⟨hmp, hexn⟩
  · exact h
  · intro s q _ hs
    refine ⟨?_, (processOrphan_exn gw false s q).trans hs.2⟩
    rw [processOrphan_live_cal gw s q hs.2 hok, mpAt_filter, hs.1]
    rfl

theorem run_date_unique {runs : List ScheduledRun}
    (hdates : (runs.map (fun r => r.date)).Nodup) {r r' : ScheduledRun}
    (hr : r ∈ runs) (hr' : r' ∈ runs) (hd : r.date = r'.date) : r = r' :=
  List.inj_on_of_nodup_map hdates hr hr' hd

theorem split_dates_ne {runs R1 R2 : List ScheduledRun} {r : ScheduledRun}
    (hdates : (runs.map (fun r => r.date)).Nodup)
    (hsplit : runs = R1 ++ r :: R2) :
    (∀ x ∈ R1, x.date ≠ r.date) ∧ (∀ x ∈ R2, x.date ≠ r.date) := by
  subst hsplit
  rw [List.map_append, List.map_cons, List.nodup_append] at hdates
  obtain ⟨h1, h2, h3⟩ := hdates
  constructor
  · intro x hx hcon
    exact h3 (List.mem_map.mpr ⟨x, hx, rfl⟩) (by rw [hcon]; simp)
  · intro x hx hcon
    rw [List.nodup_cons] at h2
    exact h2.1 (by rw [← hcon]; exact List.mem_map.mpr ⟨x, hx, rfl⟩)

theorem list_events_window {cal : List GEvent} {s t : Int} {e : GEvent}
    (he : e ∈ list_events cal s t) :
    e ∈ cal ∧ ∀ dd, e.start_date = some dd → s ≤ dd ∧ dd ≤ t := by
  unfold list_events at he
  have h1 := List.mem_of_mem_filter he
  have h2 := List.of_mem_filter he
  refine ⟨h1, ?_⟩
  intro dd hdd
  rw [hdd] at h2
  simpa using h2

/-- After one full live all-success pass: every active run date carries
exactly one managed event, and every window date without an active run
carries none. -/
theorem passOne_mpAt (cfg : Config) (gw : Gateway) (cal : List GEvent)
    (runs : List ScheduledRun)
    (hok : ∀ n, gw.write_ok n = true)
    (hlist : gw.list_fails = false)
    (hne : runs ≠ [])
    (hdates : (runs.map (fun r => r.date)).Nodup)
    (hbuilds : ∀ r ∈ runs, (build_calendar_event cfg r).isOk = true)
    (hids : (cal.map (fun e => e.id)).Nodup)
    (hm : ∀ dd : Int, ∀ x ∈ cal, ∀ y ∈ cal,
      is_managed_event x cfg.calendar.description_marker = true →
      is_managed_event y cfg.calendar.description_marker = true →
      x.start_date = some dd → y.start_date = some dd → x = y)
    (d : Int)
    (hw1 : minDate (runs.map (fun r => r.date)) - 1 ≤ d)
    (hw2 : d ≤ maxDate (runs.map (fun r => r.date)) + 1) :
    ((∃ r ∈ runs, r.date = d ∧ runActive cfg r = true) →
      ∃ ev, mpAt cfg.calendar.description_marker
        (sync_schedule_to_calendar cfg gw cal runs false).cal d = [ev]) ∧
    ((∀ r ∈ runs, r.date = d → runActive cfg r = false) →
      mpAt cfg.calendar.description_marker
        (sync_schedule_to_calendar cfg gw cal runs false).cal d = []) := by
  have hruns : runs.isEmpty = false := by
    cases runs with
    | nil => exact absurd rfl hne
    | cons a l => rfl
  unfold sync_schedule_to_calendar
  simp only [hruns, Bool.false_eq_true, if_false, hlist]
  set m := cfg.calendar.description_marker with hmdef
  set M : List GEvent := (list_events cal
      (minDate (runs.map fun r => r.date) - 1)
      (maxDate (runs.map fun r => r.date) + 1)).filter
    (fun ev => is_managed_event ev cfg.calendar.description_marker) with hM
  set st0 : SyncState :=
    { res := {}, dict := indexEvents M, cal := cal, trace := [],
      next_id := freshId cal, call_idx := 0, exn := none } with hst0
  have hst0dict : st0.dict = indexEvents M := rfl
  have hst0cal : st0.cal = cal := rfl
  have hMsub : ∀ ev ∈ M, ev ∈ cal ∧ is_managed_event ev m = true := by
    intro ev hev
    rw [hM] at hev
    have h2 := List.of_mem_filter hev
    exact ⟨List.mem_of_mem_filter (List.mem_of_mem_filter hev), h2⟩
  have hG0 : syncInv cfg (indexEvents M) st0 :=
    syncInv_init cfg cal M hids (fun ev hev => (hMsub ev hev).1)
      (fun ev hev => (hMsub ev hev).2)
  have hcalnd : cal.Nodup := hids.of_map
  have hmpnd : (mpAt m cal d).Nodup := (List.filter_sublist cal).nodup hcalnd
  have hmpcases : mpAt m cal d = [] ∨ ∃ e0, mpAt m cal d = [e0] := by
    cases hmp : mpAt m cal d with
    | nil => exact Or.inl rfl
    | cons x rest =>
      cases rest with
      | nil => exact Or.inr ⟨x, rfl⟩
      | cons y rest2 =>
        exfalso
        have hx := mpAt_mem (show x ∈ mpAt m cal d by rw [hmp]; simp)
        have hy := mpAt_mem (show y ∈ mpAt m cal d by rw [hmp]; simp)
        have hxy : x = y :=
          hm d x hx.1 y hy.1 hx.2.1 hy.2.1 hx.2.2 hy.2.2
        rw [hmp, List.nodup_cons] at hmpnd
        exact hmpnd.1 (by rw [hxy]; simp)
  have hrel0 : (dictGet (indexEvents M) d).toList = mpAt m cal d := by
    rcases hmpcases with hmp0 | ⟨e0, hmp0⟩
    · have hnone : dictGet (indexEvents M) d = none := by
        refine dictGet_none_of_keys ?_
        intro q hq hcon
        have hent := indexEvents_entry q hq
        obtain ⟨hqcal, hqman⟩ := hMsub q.2 hent.1
        have : q.2 ∈ mpAt m cal d := mem_mpAt hqcal hqman (hcon ▸ hent.2)
        rw [hmp0] at this
        cases this
      rw [hnone, hmp0]
      rfl
    · have he0mp : e0 ∈ mpAt m cal d := by rw [hmp0]; simp
      obtain ⟨he0cal, he0man, he0d⟩ := mpAt_mem he0mp
      have he0M : e0 ∈ M := by
        rw [hM]
        exact List.mem_filter.mpr ⟨mem_list_events he0cal he0d hw1 hw2, he0man⟩
      have hsome : dictGet (indexEvents M) d = some e0 := by
        refine indexEvents_get_unique he0M he0d ?_
        intro x hx hxd
        obtain ⟨hxcal, hxman⟩ := hMsub x hx
        exact hm d x hxcal e0 he0cal hxman he0man hxd he0d
      rw [hsome, hmp0]
      rfl
  by_cases hex : ∃ r ∈ runs, r.date = d
  · obtain ⟨r, hrmem, hrd⟩ := hex
    obtain ⟨R1, R2, hsplit⟩ := List.append_of_mem hrmem
    have hne12 := split_dates_ne hdates hsplit
    have hbuild1 : ∀ x ∈ R1,
        (build_calendar_event cfg x).isOk = true ∧ x.date ≠ d := by
      intro x hx
      exact ⟨hbuilds x (by rw [hsplit]; exact List.mem_append_left _ hx),
        by rw [← hrd]; exact hne12.1 x hx⟩
    have hbuild2 : ∀ x ∈ R2,
        (build_calendar_event cfg x).isOk = true ∧ x.date ≠ d := by
      intro x hx
      refine ⟨hbuilds x (by
        rw [hsplit]
        exact List.mem_append_right _ (List.mem_cons_of_mem r hx)), ?_⟩
      rw [← hrd]
      exact hne12.2 x hx
    rw [hsplit, List.foldl_append, List.foldl_cons]
    have hA := runloop_ne_date cfg gw (indexEvents M) d hok R1 st0 hbuild1 hG0
    set stA := R1.foldl (processRun cfg gw false) st0 with hstA
    have hrelA : (dictGet stA.dict r.date).toList = mpAt m stA.cal r.date := by
      rw [hrd, hA.2.2, hA.2.1, hst0dict, hst0cal]
      exact hrel0
    have hB := step_at_date cfg gw (indexEvents M) stA r hok
      (hbuilds r hrmem) hA.1 hrelA
    have hGB := syncInv_step cfg gw (indexEvents M) stA r hok
      (hbuilds r hrmem) hA.1
    set stB := processRun cfg gw false stA r with hstB
    have hC := runloop_ne_date cfg gw (indexEvents M) d hok R2 stB hbuild2 hGB
    set st1 := R2.foldl (processRun cfg gw false) stB with hst1
    by_cases hact : runActive cfg r = true
    · have hcond : (r.is_cancelled || is_no_run cfg r.date) = false := by
        cases hcc : (r.is_cancelled || is_no_run cfg r.date) with
        | false => rfl
        | true =>
          unfold runActive at hact
          rw [hcc] at hact
          exact absurd hact (by simp)
      obtain ⟨⟨ev', hmpB⟩, hgetB⟩ := hB.2 hcond
      have hmp1 : mpAt m st1.cal d = [ev'] := by
        rw [hC.2.1, ← hrd]
        exact hmpB
      have hget1 : dictGet st1.dict d = none := by
        rw [hC.2.2, ← hrd]
        exact hgetB
      have hkeys1 : ∀ q ∈ st1.dict, q.1 ≠ d := keys_ne_of_dictGet_none hget1
      have horph := orphan_keep cfg gw (indexEvents M) d ev' hok st1.dict st1
        hkeys1 (fun q hq => hq) hC.1 hmp1
      constructor
      · intro _
        exact ⟨ev', horph.2.1⟩
      · intro hall
        have h2 := hall r (by rw [← hsplit]; exact hrmem) hrd
        rw [hact] at h2
        cases h2
    · have hcond : (r.is_cancelled || is_no_run cfg r.date) = true := by
        cases hcc : (r.is_cancelled || is_no_run cfg r.date) with
        | true => rfl
        | false =>
          exfalso
          apply hact
          unfold runActive
          rw [hcc]
          rfl
      have hmpB := hB.1 hcond
      have hmp1 : mpAt m st1.cal d = [] := by
        rw [hC.2.1, ← hrd]
        exact hmpB
      have hnil := orphan_nil gw m d hok st1.dict st1 hC.1.1 hmp1
      constructor
      · rintro ⟨r', hr', hr'd, hr'act⟩
        exfalso
        have hr'runs : r' ∈ runs := by rw [hsplit]; exact hr'
        have heq : r' = r := run_date_unique hdates hr'runs hrmem
          (by rw [hr'd, hrd])
        rw [heq] at hr'act
        exact hact hr'act
      · intro _
        exact hnil.1
  · have hallne : ∀ x ∈ runs,
        (build_calendar_event cfg x).isOk = true ∧ x.date ≠ d := by
      intro x hx
      exact ⟨hbuilds x hx, fun hcon => hex ⟨x, hx, hcon⟩⟩
    have hA := runloop_ne_date cfg gw (indexEvents M) d hok runs st0 hallne hG0
    set st1 := runs.foldl (processRun cfg gw false) st0 with hst1
    rcases hmpcases with hmp0 | ⟨e0, hmp0⟩
    · have hmp1 : mpAt m st1.cal d = [] := by
        rw [hA.2.1, hst0cal]
        exact hmp0
      have hnil := orphan_nil gw m d hok st1.dict st1 hA.1.1 hmp1
      exact ⟨fun h => absurd ⟨h.choose, h.choose_spec.1, h.choose_spec.2.1⟩ hex,
        fun _ => hnil.1⟩
    · have hget1 : dictGet st1.dict d = some e0 := by
        rw [hA.2.2, hst0dict]
        cases hg : dictGet (indexEvents M) d with
        | none =>
          rw [hg, hmp0] at hrel0
          cases hrel0
        | some w =>
          rw [hg, hmp0] at hrel0
          have : w = e0 := by
            have h2 : [w] = [e0] := hrel0
            injection h2
          rw [this]
      have hmp1 : mpAt m st1.cal d = [e0] := by
        rw [hA.2.1, hst0cal]
        exact hmp0
      have hmem1 : (d, e0) ∈ st1.dict := dictGet_mem hget1
      obtain ⟨L1, L2, hLsplit⟩ := List.append_of_mem hmem1
      have hkeysnd := hA.1.2.2.2.2.2.2.1
      rw [hLsplit] at hkeysnd
      unfold dictKeys at hkeysnd
      rw [List.map_append, List.map_cons, List.nodup_append] at hkeysnd
      obtain ⟨hn1, hn2, hdisj⟩ := hkeysnd
      have hk1 : ∀ q ∈ L1, q.1 ≠ d := by
        intro q hq hcon
        exact hdisj (List.mem_map.mpr ⟨q, hq, rfl⟩) (by rw [hcon]; simp)
      rw [hLsplit, List.foldl_append, List.foldl_cons]
      have horph1 := orphan_keep cfg gw (indexEvents M) d e0 hok L1 st1 hk1
        (fun q hq => by rw [hLsplit]; exact List.mem_append_left _ hq)
        hA.1 hmp1
      set sA := L1.foldl (processOrphan gw false) st1 with hsA
      have hstep : mpAt m (processOrphan gw false sA (d, e0)).cal d = [] := by
        rw [processOrphan_live_cal gw sA (d, e0) horph1.1.1 hok, mpAt_filter,
          horph1.2.1, List.filter_cons]
        simp
      have hexnA : (processOrphan gw false sA (d, e0)).exn = none :=
        (processOrphan_exn gw false sA (d, e0)).trans horph1.1.1
      have hnil := orphan_nil gw m d hok L2 _ hexnA hstep
      exact ⟨fun h => absurd ⟨h.choose, h.choose_spec.1, h.choose_spec.2.1⟩ hex,
        fun _ => hnil.1⟩

theorem foldl_abs_live (cfg : Config) (gw : Gateway)
    (hok : ∀ n, gw.write_ok n = true) :
    ∀ (l : List ScheduledRun) (st : SyncState),
      absSync (l.foldl (processRun cfg gw false) st) =
        l.foldl (stepA cfg) (absSync st)
  | [], _ => rfl
  | r :: l, st => by
    rw [List.foldl_cons, List.foldl_cons,
      foldl_abs_live cfg gw hok l (processRun cfg gw false st r),
      processRun_abs_live cfg gw st r hok]

/-- The abstract run loop on an index holding exactly the active dates:
every active run updates (claiming its entry), every other run is skipped,
and the index is drained. -/
theorem runloop_abs (cfg : Config) :
    ∀ (runs : List ScheduledRun) (res : SyncResult) (dict : DateDict),
      (runs.map (fun r => r.date)).Nodup →
      (∀ r ∈ runs, (build_calendar_event cfg r).isOk = true) →
      (∀ r ∈ runs, runActive cfg r = true →
        ∃ v, dictGet dict r.date = some v) →
      (∀ q ∈ dict, ∃ r ∈ runs, runActive cfg r = true ∧ q.1 = r.date) →
      runs.foldl (stepA cfg) (res, dict, none) =
        ({ res with
            updated := res.updated + activeCount cfg runs,
            skipped := res.skipped + (runs.length - activeCount cfg runs) },
          [], none)
  | [], res, dict, _, _, _, hqs => by
    have hdict : dict = [] := by
      rw [List.eq_nil_iff_forall_not_mem]
      intro q hq
      obtain ⟨r, hr, _⟩ := hqs q hq
      cases hr
    subst hdict
    obtain ⟨rc, ru, rd, rs, re⟩ := res
    simp [activeCount]
  | r :: rest, res, dict, hdates, hbuilds, hacts, hqs => by
    have hdatesrest : (rest.map (fun r => r.date)).Nodup := by
      rw [List.map_cons, List.nodup_cons] at hdates
      exact hdates.2
    have hrne : r.date ∉ rest.map (fun r => r.date) := by
      rw [List.map_cons, List.nodup_cons] at hdates
      exact hdates.1
    rw [List.foldl_cons]
    by_cases hact : runActive cfg r = true
    · obtain ⟨v, hv⟩ := hacts r (List.mem_cons_self r rest) hact
      obtain ⟨desired, hb⟩ : ∃ w, build_calendar_event cfg r = .ok w := by
        have hbo := hbuilds r (List.mem_cons_self r rest)
        cases hbe : build_calendar_event cfg r with
        | ok w => exact ⟨w, rfl⟩
        | error msg =>
          rw [hbe] at hbo
          simp [Except.isOk, Except.toBool] at hbo
      have hcond : (r.is_cancelled || is_no_run cfg r.date) = false := by
        cases hcc : (r.is_cancelled || is_no_run cfg r.date) with
        | false => rfl
        | true =>
          unfold runActive at hact
          rw [hcc] at hact
          exact absurd hact (by simp)
      have hstep : stepA cfg (res, dict, none) r =
          ({ res with updated := res.updated + 1 },
            dictDel dict r.date, none) := by
        unfold stepA
        simp [hcond, hb, hv]
      rw [hstep,
        runloop_abs cfg rest { res with updated := res.updated + 1 }
          (dictDel dict r.date) hdatesrest
          (fun x hx => hbuilds x (List.mem_cons_of_mem r hx))
          (fun x hx hxact => by
            obtain ⟨w, hw⟩ := hacts x (List.mem_cons_of_mem r hx) hxact
            refine ⟨w, ?_⟩
            rw [dictGet_dictDel_ne ?_]
            · exact hw
            · intro hcon
              exact hrne (hcon ▸ List.mem_map.mpr ⟨x, hx, rfl⟩))
          (fun q hq => by
            have hq' : q ∈ dict := dictDel_mem hq
            obtain ⟨x, hx, hxact, hxd⟩ := hqs q hq'
            rcases List.mem_cons.mp hx with h1 | h1
            · exfalso
              subst h1
              have h2 := List.of_mem_filter hq
              simp only [bne_iff_ne, ne_eq] at h2
              exact h2 hxd
            · exact ⟨x, h1, hxact, hxd⟩)]
      obtain ⟨rc, ru, rd, rs, re⟩ := res
      simp [activeCount, List.filter_cons, hact]
      all_goals omega
    · have hactf : runActive cfg r = false := by
        cases hra : runActive cfg r with
        | false => rfl
        | true => exact absurd hra hact
      have hnone : dictGet dict r.date = none := by
        cases hg : dictGet dict r.date with
        | none => rfl
        | some w =>
          exfalso
          obtain ⟨x, hx, hxact, hxd⟩ := hqs (r.date, w) (dictGet_mem hg)
          rcases List.mem_cons.mp hx with h1 | h1
          · subst h1
            rw [hxact] at hactf
            cases hactf
          · simp only at hxd
            exact hrne (hxd ▸ List.mem_map.mpr ⟨x, h1, rfl⟩)
      have hcond : (r.is_cancelled || is_no_run cfg r.date) = true := by
        cases hcc : (r.is_cancelled || is_no_run cfg r.date) with
        | true => rfl
        | false =>
          exfalso
          apply hact
          unfold runActive
          rw [hcc]
          rfl
      have hstep : stepA cfg (res, dict, none) r =
          ({ res with skipped := res.skipped + 1 }, dict, none) := by
        unfold stepA
        simp [hcond, hnone]
      rw [hstep,
        runloop_abs cfg rest { res with skipped := res.skipped + 1 } dict
          hdatesrest
          (fun x hx => hbuilds x (List.mem_cons_of_mem r hx))
          (fun x hx hxact => hacts x (List.mem_cons_of_mem r hx) hxact)
          (fun q hq => by
            obtain ⟨x, hx, hxact, hxd⟩ := hqs q hq
            rcases List.mem_cons.mp hx with h1 | h1
            · exfalso
              subst h1
              rw [hxact] at hactf
              cases hactf
            · exact ⟨x, h1, hxact, hxd⟩)]
      have hle : activeCount cfg rest ≤ rest.length :=
        List.length_filter_le _ _
      unfold activeCount at hle
      obtain ⟨rc, ru, rd, rs, re⟩ := res
      simp [activeCount, List.filter_cons, hactf]
      all_goals omega

/-- A live all-success pass over a calendar whose index holds exactly the
active run dates produces `activeCount` updates and nothing else. -/
theorem sync_counters_of_index (cfg : Config) (gw : Gateway)
    (F : List GEvent) (runs : List ScheduledRun)
    (hok : ∀ n, gw.write_ok n = true)
    (hlist : gw.list_fails = false)
    (hne : runs ≠ [])
    (hdates : (runs.map (fun r => r.date)).Nodup)
    (hbuilds : ∀ r ∈ runs, (build_calendar_event cfg r).isOk = true)
    (hyp1 : ∀ r ∈ runs, runActive cfg r = true →
      ∃ v, dictGet (indexEvents ((list_events F
          (minDate (runs.map fun r => r.date) - 1)
          (maxDate (runs.map fun r => r.date) + 1)).filter
        (fun ev => is_managed_event ev cfg.calendar.description_marker)))
        r.date = some v)
    (hyp2 : ∀ q ∈ indexEvents ((list_events F
          (minDate (runs.map fun r => r.date) - 1)
          (maxDate (runs.map fun r => r.date) + 1)).filter
        (fun ev => is_managed_event ev cfg.calendar.description_marker)),
      ∃ r ∈ runs, runActive cfg r = true ∧ q.1 = r.date) :
    (sync_schedule_to_calendar cfg gw F runs false).res =
      { created := 0, updated := activeCount cfg runs, deleted := 0,
        skipped := runs.length - activeCount cfg runs, errors := [] } := by
  have hruns : runs.isEmpty = false := by
    cases runs with
    | nil => exact absurd rfl hne
    | cons a l => rfl
  unfold sync_schedule_to_calendar
  simp only [hruns, Bool.false_eq_true, if_false, hlist]
  set M : List GEvent := (list_events F
      (minDate (runs.map fun r => r.date) - 1)
      (maxDate (runs.map fun r => r.date) + 1)).filter
    (fun ev => is_managed_event ev cfg.calendar.description_marker) with hM
  set st0 : SyncState :=
    { res := {}, dict := indexEvents M, cal := F, trace := [],
      next_id := freshId F, call_idx := 0, exn := none } with hst0
  have habs := foldl_abs_live cfg gw hok runs st0
  have habs0 : absSync st0 = ({}, indexEvents M, none) := rfl
  rw [habs0, runloop_abs cfg runs {} (indexEvents M) hdates hbuilds hyp1
    hyp2] at habs
  set st1 := runs.foldl (processRun cfg gw false) st0 with hst1
  have hdict1 : st1.dict = [] := by
    have := congrArg (fun p => p.2.1) habs
    simpa [absSync] using this
  have hres1 : st1.res = { ({} : SyncResult) with
      updated := ({} : SyncResult).updated + activeCount cfg runs,
      skipped := ({} : SyncResult).skipped +
        (runs.length - activeCount cfg runs) } := by
    have := congrArg (fun p => p.1) habs
    simpa [absSync] using this
  rw [hdict1, List.foldl_nil, hres1]
  simp

/-- C3 counterexample: two runs share date 4. The first pass creates two
events on that date; the second pass updates one and creates another, so
the second pass has created = 1 (claim says 0) and updated = 1 while there
are 2 active runs. -/
theorem claim3_counterexample :
    (sync_schedule_to_calendar sampleCfg gwAllOk
      (sync_schedule_to_calendar sampleCfg gwAllOk [] [plainRun4, plainRun4]
        false).cal
      [plainRun4, plainRun4] false).res.created = 1 ∧
    (sync_schedule_to_calendar sampleCfg gwAllOk
      (sync_schedule_to_calendar sampleCfg gwAllOk [] [plainRun4, plainRun4]
        false).cal
      [plainRun4, plainRun4] false).res.updated = 1 ∧
    activeCount sampleCfg [plainRun4, plainRun4] = 2 := by
  refine ⟨by decide, by decide, by decide⟩

/-- C3 (amended): with pairwise-distinct run dates, at most one managed
event per date on the initial calendar, unique event ids, a successful
listing, every event build succeeding and every gateway call succeeding,
running the live pass twice with no intervening change yields, on the
second pass, zero creates, zero deletes and one update per active
(non-cancelled, non-no-run) run. -/
theorem claim3_second_pass_idempotent (cfg : Config) (gw : Gateway)
    (cal : List GEvent) (runs : List ScheduledRun)
    (hok : ∀ n, gw.write_ok n = true)
    (hlist : gw.list_fails = false)
    (hne : runs ≠ [])
    (hdates : (runs.map (fun r => r.date)).Nodup)
    (hbuilds : ∀ r ∈ runs, (build_calendar_event cfg r).isOk = true)
    (hids : (cal.map (fun e => e.id)).Nodup)
    (hm : ∀ dd : Int, ∀ x ∈ cal, ∀ y ∈ cal,
      is_managed_event x cfg.calendar.description_marker = true →
      is_managed_event y cfg.calendar.description_marker = true →
      x.start_date = some dd → y.start_date = some dd → x = y) :
    (sync_schedule_to_calendar cfg gw
      (sync_schedule_to_calendar cfg gw cal runs false).cal runs
      false).res.created = 0 ∧
    (sync_schedule_to_calendar cfg gw
      (sync_schedule_to_calendar cfg gw cal runs false).cal runs
      false).res.deleted = 0 ∧
    (sync_schedule_to_calendar cfg gw
      (sync_schedule_to_calendar cfg gw cal runs false).cal runs
      false).res.updated = activeCount cfg runs := by
  set F := (sync_schedule_to_calendar cfg gw cal runs false).cal with hF
  set m := cfg.calendar.description_marker with hmdef
  set s := minDate (runs.map fun r => r.date) - 1 with hs
  set t := maxDate (runs.map fun r => r.date) + 1 with ht
  have hpass : ∀ d : Int, s ≤ d → d ≤ t →
      ((∃ r ∈ runs, r.date = d ∧ runActive cfg r = true) →
        ∃ ev, mpAt m F d = [ev]) ∧
      ((∀ r ∈ runs, r.date = d → runActive cfg r = false) →
        mpAt m F d = []) :=
    fun d hw1 hw2 => passOne_mpAt cfg gw cal runs hok hlist hne hdates
      hbuilds hids hm d hw1 hw2
  have hyp1 : ∀ r ∈ runs, runActive cfg r = true →
      ∃ v, dictGet (indexEvents ((list_events F s t).filter
        (fun ev => is_managed_event ev m))) r.date = some v := by
    intro r hr hact
    have hmemd : r.date ∈ runs.map (fun r => r.date) :=
      List.mem_map.mpr ⟨r, hr, rfl⟩
    have hw1 : s ≤ r.date := by
      have := minDate_le hmemd
      omega
    have hw2 : r.date ≤ t := by
      have := le_maxDate hmemd
      omega
    obtain ⟨ev, hev⟩ := (hpass r.date hw1 hw2).1 ⟨r, hr, rfl, hact⟩
    have hevmp : ev ∈ mpAt m F r.date := by rw [hev]; simp
    obtain ⟨hevF, hevman, hevd⟩ := mpAt_mem hevmp
    have hevM : ev ∈ (list_events F s t).filter
        (fun ev => is_managed_event ev m) :=
      List.mem_filter.mpr ⟨mem_list_events hevF hevd hw1 hw2, hevman⟩
    refine ⟨ev, indexEvents_get_unique hevM hevd ?_⟩
    intro x hx hxd
    have hxF : x ∈ F := List.mem_of_mem_filter (List.mem_of_mem_filter hx)
    have hxman : is_managed_event x m = true := by
      simpa using List.of_mem_filter hx
    have : x ∈ mpAt m F r.date := mem_mpAt hxF hxman hxd
    rw [hev] at this
    exact List.mem_singleton.mp this
  have hyp2 : ∀ q ∈ indexEvents ((list_events F s t).filter
        (fun ev => is_managed_event ev m)),
      ∃ r ∈ runs, runActive cfg r = true ∧ q.1 = r.date := by
    intro q hq
    have hent := indexEvents_entry q hq
    have hqM := hent.1
    have hqF : q.2 ∈ F :=
      List.mem_of_mem_filter (List.mem_of_mem_filter hqM)
    have hqman : is_managed_event q.2 m = true := by
      simpa using List.of_mem_filter hqM
    have hwin := (list_events_window (List.mem_of_mem_filter hqM)).2 q.1
      hent.2
    by_cases hexa : ∃ r ∈ runs, r.date = q.1 ∧ runActive cfg r = true
    · obtain ⟨r, hr, hrd, hra⟩ := hexa
      exact ⟨r, hr, hra, hrd.symm⟩
    · exfalso
      have hallinact : ∀ r ∈ runs, r.date = q.1 → runActive cfg r = false := by
        intro r hr hrd
        cases hra : runActive cfg r with
        | false => rfl
        | true => exact absurd ⟨r, hr, hrd, hra⟩ hexa
      have hempty := (hpass q.1 hwin.1 hwin.2).2 hallinact
      have : q.2 ∈ mpAt m F q.1 := mem_mpAt hqF hqman hent.2
      rw [hempty] at this
      cases this
  have hres := sync_counters_of_index cfg gw F runs hok hlist hne hdates
    hbuilds hyp1 hyp2
  rw [hres]
  exact ⟨rfl, rfl, rfl⟩

/-- Witness for C3 (amended) at concrete inputs: an empty calendar and three
runs on distinct dates, one cancelled — the second pass updates exactly the
two active runs and creates/deletes nothing. -/
theorem claim3_witness :
    (sync_schedule_to_calendar sampleCfg gwAllOk
      (sync_schedule_to_calendar sampleCfg gwAllOk []
        [plainRun0, plainRun4, cancelledRun9] false).cal
      [plainRun0, plainRun4, cancelledRun9] false).res.created = 0 ∧
    (sync_schedule_to_calendar sampleCfg gwAllOk
      (sync_schedule_to_calendar sampleCfg gwAllOk []
        [plainRun0, plainRun4, cancelledRun9] false).cal
      [plainRun0, plainRun4, cancelledRun9] false).res.deleted = 0 ∧
    (sync_schedule_to_calendar sampleCfg gwAllOk
      (sync_schedule_to_calendar sampleCfg gwAllOk []
        [plainRun0, plainRun4, cancelledRun9] false).cal
      [plainRun0, plainRun4, cancelledRun9] false).res.updated =
      activeCount sampleCfg [plainRun0, plainRun4, cancelledRun9] :=
  claim3_second_pass_idempotent sampleCfg gwAllOk []
    [plainRun0, plainRun4, cancelledRun9] (fun _ => rfl) rfl (by decide)
    (by decide) (by decide) (by decide)
    (fun _ x hx => absurd hx (List.not_mem_nil x))

end RunningApp
